import Mathlib

/-!
Verification of the radgraph post-processing core (radgraph/radgpt.py).

This file gives a shallow embedding of the functions of `radgpt.py`
(`recursive_modifier`, `sort_words_by_index`, `filter_loop`,
`get_radgraph_processed_annotations`) and proves or refutes the frozen
claims about them.

Modelling conventions:
- Python dicts keyed by entity-id strings are insertion-ordered association
  lists `List (String × _)`; assignment to an existing key updates the value
  in place, a new key is appended at the end, exactly as CPython dicts.
- Python sets (the `visited` set of `recursive_modifier`) are `Finset String`:
  only membership and insertion are used.
- Python exceptions are `Except RgErr`: `annotations[ind]` on a missing key
  is `RgErr.keyError ind`.  `RgErr.recursionError` is a marker for an
  exhausted recursion bound; it is proved unreachable.
- Machine integers (`start_ix`, `end_ix`) are `Int`; `int(x)` in the source
  is the identity on them.
- `in` on a Python string is contiguous-substring containment, `in` on a
  Python list is elementwise equality membership; both are modelled as such.
-/

namespace Radgraph

/-- A relation of an entity: the pair `(relation_type, target_id)` of the
two-element list stored under `"relations"` in the input JSON. -/
abbrev Relation := String × String

/-- Entity of the annotation graph, as stored under `"entities"`. -/
structure Entity where
  tokens : String
  label : String
  start_ix : Int
  end_ix : Int
  relations : List Relation
deriving DecidableEq, Repr

/-- The per-document input: the `"0"`-keyed entry of the input mapping,
holding the entity mapping and the source text. -/
structure RadDoc where
  entities : List (String × Entity)
  text : String
deriving DecidableEq, Repr

/-- Errors the pipeline can raise.  `keyError ind` models Python's
`KeyError` on a missing entity id; `recursionError` is the marker returned
when the explicit recursion bound of the model is exhausted (proved
unreachable, mirroring the termination of the Python code). -/
inductive RgErr where
  | keyError (ind : String)
  | recursionError
deriving DecidableEq, Repr

deriving instance DecidableEq for Except

/-- Association lists modelling the Python dicts keyed by entity id. -/
abbrev Annotations := List (String × Entity)

/-- Adjacency maps (`defaultdict(list)` in the source): entity id to list of
entity ids. -/
abbrev AdjMap := List (String × List String)

/-- The tuple collected per entity by `recursive_modifier`:
`(tokens, label, start_ix, end_ix)`. -/
abbrev RMTuple := String × String × Int × Int

/-- Python `annotations[ind]`: lookup that raises `KeyError` when missing. -/
def lookupA (ann : Annotations) (ind : String) : Except RgErr Entity :=
  match ann.find? (fun p => p.1 == ind) with
  | some p => .ok p.2
  | none => .error (.keyError ind)

/-- Python `ind in d` / `d[ind]` on an adjacency map (no default insertion
is ever triggered in the source: every subscript is guarded by `in`). -/
def lookupAdj (d : AdjMap) (ind : String) : Option (List String) :=
  (d.find? (fun p => p.1 == ind)).map Prod.snd

/-- Python `d[k].append(v)` on a `defaultdict(list)`: extend the list of an
existing key in place, or append a new `(k, [v])` entry. -/
def appendAdj (m : AdjMap) (k v : String) : AdjMap :=
  if m.any (fun p => p.1 == k) then
    m.map (fun p => if p.1 == k then (p.1, p.2 ++ [v]) else p)
  else m ++ [(k, [v])]

/-- Python `m[k] = v` on a plain dict of strings: overwrite in place or
append a new entry. -/
def dictInsert (m : List (String × String)) (k v : String) :
    List (String × String) :=
  if m.any (fun p => p.1 == k) then
    m.map (fun p => if p.1 == k then (p.1, v) else p)
  else m ++ [(k, v)]

/-- Python `needle in haystack` on strings: contiguous substring test. -/
def strIn (needle haystack : String) : Bool :=
  decide (needle.toList <:+: haystack.toList)

/-- Worker for `pySplit`: `acc` is the reversed current word; whitespace
ends a word, empty pieces are dropped. -/
def pySplitGo : List Char → List Char → List String
  | acc, [] => if acc.isEmpty then [] else [String.mk acc.reverse]
  | acc, c :: cs =>
    if c.isWhitespace then
      if acc.isEmpty then pySplitGo [] cs
      else String.mk acc.reverse :: pySplitGo [] cs
    else pySplitGo (c :: acc) cs

/-- Python `s.split()`: split on whitespace runs, dropping empty pieces. -/
def pySplit (s : String) : List String := pySplitGo [] s.toList

/-- The characters stripped by the source's `.strip("\n .\"'")`. -/
def stripSet : List Char := "\n .\"'".toList

/-- Python `s.lower()`: lower-case each character (`String.toLower`, stated
over the character list so that it evaluates by kernel reduction). -/
def pyLower (s : String) : String := String.mk (s.toList.map Char.toLower)

/-- Python `s.strip("\n .\"'")`: drop characters of the strip set from both
ends. -/
def pyStrip (s : String) : String :=
  String.mk (((s.toList.dropWhile (fun c => stripSet.contains c)).reverse.dropWhile
    (fun c => stripSet.contains c)).reverse)

/-- The list comprehension `[x for i, x in enumerate(l) if x not in l[:i]]`:
first-occurrence deduplication.  `prev` accumulates the already-scanned
prefix. -/
def pyDedupGo [DecidableEq α] : List α → List α → List α
  | _, [] => []
  | prev, x :: xs =>
    if x ∈ prev then pyDedupGo (prev ++ [x]) xs
    else x :: pyDedupGo (prev ++ [x]) xs

/-- First-occurrence deduplication, as used on the three parallel sequences
of the observation path (radgpt.py lines 130-134). -/
def pyDedup [DecidableEq α] (l : List α) : List α := pyDedupGo [] l

/-- Python `sorted` on a list of ints (stability is irrelevant for ints). -/
def sortInts (l : List Int) : List Int := List.insertionSort (· ≤ ·) l

/-- Function `sort_words_by_index` (radgpt.py lines 34-36):
`[word_list[index_list.index(i)] for i in sorted(index_list)]`.
The default of `getD` is never used when both lists have equal length, which
is the case at every call site. -/
def sort_words_by_index (word_list : List String) (index_list : List Int) :
    List String :=
  (sortInts index_list).map (fun i => word_list.getD (index_list.indexOf i) "")

/-- The accumulation loop of `filter_loop` (radgpt.py lines 39-45): `acc` is
the ordered item list of the `to_keep` dict.  An entry `(k, v)` is skipped
exactly when the tuple `(v[0], [k])` already occurs among the accumulated
items.  `headI` models `v[0]` (the source is only ever applied to maps whose
value lists are nonempty; on an empty list Python would raise). -/
def filter_loopGo : List (String × List String) → AdjMap → AdjMap
  | acc, [] => acc
  | acc, (k, v) :: rest =>
    if (v.headI, [k]) ∈ acc then filter_loopGo acc rest
    else filter_loopGo (acc ++ [(k, v)]) rest

/-- Function `filter_loop` (radgpt.py lines 39-45). -/
def filter_loop (d : AdjMap) : AdjMap := filter_loopGo [] d

/-- The `(tokens, label, start_ix, end_ix)` tuple appended for an entity by
`recursive_modifier` (radgpt.py lines 29-30). -/
def entTuple (e : Entity) : RMTuple := (e.tokens, e.label, e.start_ix, e.end_ix)

/-- The `for modifier_index in d[ind]` loop of `recursive_modifier`:
sequentially runs `rm` on each child, threading the (shared, mutated)
visited set and concatenating the results; an exception aborts the loop. -/
def rmList (rm : Finset String → String → Except RgErr (List RMTuple × Finset String)) :
    Finset String → List String → Except RgErr (List RMTuple × Finset String)
  | v, [] => .ok ([], v)
  | v, c :: cs =>
    match rm v c with
    | .error e => .error e
    | .ok pr =>
      match rmList rm pr.2 cs with
      | .error e => .error e
      | .ok qr => .ok (pr.1 ++ qr.1, qr.2)

/-- Function `recursive_modifier` (radgpt.py lines 14-31), with an explicit recursion
bound in place of Python's unbounded call stack.  A visited start id yields
`[]`; otherwise the id is marked visited, the children listed under it in
`d` are traversed in order (threading the visited set), and the entity's own
tuple is appended last.  `annotations[ind]` is looked up after the children,
as in the source. -/
def rmFuel (ann : Annotations) (d : AdjMap) :
    Nat → Finset String → String → Except RgErr (List RMTuple × Finset String)
  | 0, _, _ => .error .recursionError
  | fuel + 1, v, ind =>
    if ind ∈ v then .ok ([], v)
    else
      match lookupAdj d ind with
      | none =>
        match lookupA ann ind with
        | .error e => .error e
        | .ok e => .ok ([entTuple e], insert ind v)
      | some children =>
        match rmList (fun vv c => rmFuel ann d fuel vv c) (insert ind v) children with
        | .error e => .error e
        | .ok pr =>
          match lookupA ann ind with
          | .error e => .error e
          | .ok e => .ok (pr.1 ++ [entTuple e], pr.2)

/-- All ids occurring in the value lists of an adjacency map: the only ids
`recursive_modifier` can recurse into.  The visited set bounds the recursion
depth by the cardinality of this set. -/
def adjValueIds (d : AdjMap) : Finset String :=
  d.foldr (fun p acc => p.2.toFinset ∪ acc) ∅

/-- Call `recursive_modifier(annotations, ind, d)` with the default fresh visited
set, run with enough recursion bound for the visited-set argument to make it
unreachable (`rmFuel_no_recursionError`). -/
def recursive_modifier (ann : Annotations) (ind : String) (d : AdjMap) :
    Except RgErr (List RMTuple × Finset String) :=
  rmFuel ann d ((adjValueIds d).card + 2) ∅ ind

/-- State built by the first loop of `get_radgraph_processed_annotations`
(radgpt.py lines 52-94): the four adjacency maps and the main observations
`(index, tokens, label)` in encounter order. -/
structure IndexState where
  obs_modified_by_obs : AdjMap
  obs_located_anat : AdjMap
  obs_suggest_obs : AdjMap
  anat_modify_anat : AdjMap
  all_observations : List (String × String × String)
deriving DecidableEq, Repr

/-- Python `'modify' in relation` etc.: membership of a string in the
two-element relation list `[relation_type, target_id]`. -/
def relMem (s : String) (r : Relation) : Bool := r.1 == s || r.2 == s

/-- One step of the first loop, for a single entity (radgpt.py lines
69-94): record it as a main observation when its label contains
`Observation` and no relation has first component `modify`; then classify
each relation into the four maps. -/
def relStep (st : IndexState) (p : String × Entity) : IndexState :=
  let index := p.1
  let e := p.2
  let st :=
    if strIn "Observation" e.label &&
        !((e.relations.map Prod.fst).contains "modify") then
      { st with all_observations := st.all_observations ++ [(index, e.tokens, e.label)] }
    else st
  e.relations.foldl (fun st r =>
    let st :=
      if relMem "modify" r && strIn "Observation" e.label then
        { st with obs_modified_by_obs := appendAdj st.obs_modified_by_obs r.2 index }
      else st
    let st :=
      if relMem "modify" r && strIn "Anatomy" e.label then
        { st with anat_modify_anat := appendAdj st.anat_modify_anat r.2 index }
      else st
    let st :=
      if relMem "located_at" r && strIn "Observation" e.label then
        { st with obs_located_anat := appendAdj st.obs_located_anat index r.2 }
      else st
    if relMem "suggestive_of" r && strIn "Observation" e.label then
      { st with obs_suggest_obs := appendAdj st.obs_suggest_obs index r.2 }
    else st) st

/-- The first loop of `get_radgraph_processed_annotations` (the
RelationIndexer of the spec). -/
def relIndex (entities : Annotations) : IndexState :=
  entities.foldl relStep ⟨[], [], [], [], []⟩

/-- Invariant of the indexer state: every id stored in the value lists of
the two modifier maps, and every main-observation index, is a key of the
entity mapping.  These are exactly the ids the main loop dereferences apart
from located_at and suggestive_of targets. -/
def MapsValid (es : Annotations) (st : IndexState) : Prop :=
  (∀ p ∈ st.obs_modified_by_obs, ∀ x ∈ p.2, ∃ e', lookupA es x = .ok e') ∧
  (∀ p ∈ st.anat_modify_anat, ∀ x ∈ p.2, ∃ e', lookupA es x = .ok e') ∧
  (∀ o ∈ st.all_observations, ∃ e', lookupA es o.1 = .ok e')

/-- An output record (one element of `processed_observations`). -/
structure ObservationRecord where
  observation : String
  observation_start_ix : List Int
  observation_end_ix : List Int
  located_at : List String
  located_at_start_ix : List (List Int)
  tags : List String
  suggestive_of : Option (List String)
deriving DecidableEq, Repr

/-- Python `f(x) for x` loop accumulating results left to right, aborting on
the first exception. -/
def mapME (f : α → Except RgErr β) : List α → Except RgErr (List β)
  | [] => .ok []
  | x :: xs =>
    match f x with
    | .error e => .error e
    | .ok y =>
      match mapME f xs with
      | .error e => .error e
      | .ok ys => .ok (y :: ys)

/-- The inner body of the substring filters (radgpt.py lines 184-188 and
206-210): entry `item` at position `i` is flagged when some other position
holds a string of which `item` is a literal substring and a word-set
subset. -/
def subDrop (l : List String) (i : Nat) (item : String) : Bool :=
  l.enum.any (fun q =>
    i != q.1 && strIn item q.2 && (pySplit item).all (fun w => (pySplit q.2).contains w))

/-- The suggestive_of substring filter (radgpt.py lines 204-212): keep the
entries that are not flagged, in order. -/
def substring_filter (l : List String) : List String :=
  (l.enum.filter (fun p => !subDrop l p.1 p.2)).map Prod.snd

/-- The located_at substring filter (radgpt.py lines 180-191): same test on
the phrases, keeping each kept phrase's start-index list aligned. -/
def substring_filter_ix (phrases : List String) (ixs : List (List Int)) :
    List String × List (List Int) :=
  let kept := phrases.enum.filter (fun p => !subDrop phrases p.1 p.2)
  (kept.map Prod.snd, kept.map (fun p => ixs.getD p.1 []))

/-- One anatomy target of the located_at branch (radgpt.py lines 164-177):
resolve the modifier closure over `anat_modify_anat`, reorder the tokens by
start index, and sort the two index lists.  Note: no deduplication is
applied on this path. -/
def locatedEntry (ann : Annotations) (anat_map : AdjMap) (anat_index : String) :
    Except RgErr (String × List Int × List Int) :=
  match recursive_modifier ann anat_index anat_map with
  | .error e => .error e
  | .ok pr =>
    let mods := pr.1
    let starts := mods.map (fun m => m.2.2.1)
    let ends := mods.map (fun m => m.2.2.2)
    let toks := mods.map (fun m => m.1)
    let phrase := String.intercalate " " (sort_words_by_index toks starts)
    .ok (pyStrip (pyLower phrase), sortInts starts, sortInts ends)

/-- The located_at branch of the main loop (radgpt.py lines 156-194). -/
def locPart (ann : Annotations) (anat_map located_map : AdjMap)
    (observation_index : String) : Except RgErr (List String × List (List Int)) :=
  match lookupAdj located_map observation_index with
  | none => .ok ([], [])
  | some anats =>
    match mapME (locatedEntry ann anat_map) anats with
    | .error e => .error e
    | .ok entries =>
      .ok (substring_filter_ix (entries.map (fun q => q.1)) (entries.map (fun q => q.2.1)))

/-- One suggestive_of target (radgpt.py line 201):
`tokens + " suggestive of " + annotations[target]["tokens"]`. -/
def suggestEntry (ann : Annotations) (tokens target : String) : Except RgErr String :=
  match lookupA ann target with
  | .error e => .error e
  | .ok e => .ok (tokens ++ " suggestive of " ++ e.tokens)

/-- The suggestive_of branch of the main loop (radgpt.py lines 196-214):
`none` when the observation has no suggestive_of entries, otherwise the
substring-filtered list. -/
def suggPart (ann : Annotations) (suggest_map : AdjMap)
    (observation_index tokens : String) : Except RgErr (Option (List String)) :=
  match lookupAdj suggest_map observation_index with
  | none => .ok none
  | some targets =>
    match mapME (suggestEntry ann tokens) targets with
    | .error e => .error e
    | .ok recs => .ok (some (substring_filter recs))

/-- The body of the main loop of `get_radgraph_processed_annotations`
(radgpt.py lines 102-216), building one `ObservationRecord` for one main
observation `(index, tokens, label)`. -/
def buildRecord (ann : Annotations) (obs_map located_map suggest_map anat_map : AdjMap)
    (obs : String × String × String) : Except RgErr ObservationRecord :=
  match recursive_modifier ann obs.1 obs_map with
  | .error e => .error e
  | .ok pr =>
    let modifiers := pr.1
    let modifiers_labels := modifiers.map (fun m => m.2.1)
    let starts0 := modifiers.map (fun m => m.2.2.1)
    let ends0 := modifiers.map (fun m => m.2.2.2)
    let toks0 := modifiers.map (fun m => m.1)
    let toks2 := pyDedup (sort_words_by_index toks0 starts0)
    let starts2 := pyDedup (sortInts starts0)
    let ends2 := pyDedup (sortInts ends0)
    let tag :=
      if "Observation::definitely absent" ∈ modifiers_labels ∨
          "Observation::measurement::definitely absent" ∈ modifiers_labels then
        "definitely absent"
      else if "Observation::uncertain" ∈ modifiers_labels ∨
          "Observation::measurement::uncertain" ∈ modifiers_labels then
        "uncertain"
      else "definitely present"
    match locPart ann anat_map located_map obs.1 with
    | .error e => .error e
    | .ok locpair =>
      match suggPart ann suggest_map obs.1 obs.2.1 with
      | .error e => .error e
      | .ok sugg =>
        .ok { observation := pyStrip (pyLower (String.intercalate " " toks2))
              observation_start_ix := starts2
              observation_end_ix := ends2
              located_at := locpair.1
              located_at_start_ix := locpair.2
              tags := [tag]
              suggestive_of := sugg }

/-- The side map `start_ix_to_label` (radgpt.py line 218): the dict
comprehension mapping `str(v["start_ix"])` to `v["label"]` over every entity
of the document in order; a repeated key is overwritten in place. -/
def build_start_ix_to_label (entities : Annotations) : List (String × String) :=
  entities.foldl (fun m p => dictInsert m (toString p.2.start_ix) p.2.label) []

/-- The full output mapping (radgpt.py lines 220-223). -/
structure ProcessedOutput where
  processed_annotations : List ObservationRecord
  radgraph_annotations : RadDoc
  start_ix_to_label : List (String × String)
  radgraph_text : String
deriving DecidableEq, Repr

/-- The filtered `obs_modified_by_obs` map of a document (radgpt.py line 97). -/
def obs_map_of (doc : RadDoc) : AdjMap :=
  filter_loop (relIndex doc.entities).obs_modified_by_obs

/-- The filtered `anat_modify_anat` map of a document (radgpt.py line 98). -/
def anat_map_of (doc : RadDoc) : AdjMap :=
  filter_loop (relIndex doc.entities).anat_modify_anat

/-- Function `get_radgraph_processed_annotations` (radgpt.py lines 48-223). -/
def get_radgraph_processed_annotations (doc : RadDoc) :
    Except RgErr ProcessedOutput :=
  let st := relIndex doc.entities
  match mapME
      (buildRecord doc.entities (obs_map_of doc) st.obs_located_anat
        st.obs_suggest_obs (anat_map_of doc))
      st.all_observations with
  | .error e => .error e
  | .ok processed =>
    .ok { processed_annotations := processed
          radgraph_annotations := doc
          start_ix_to_label := build_start_ix_to_label doc.entities
          radgraph_text := doc.text }

/-- The drop condition of the substring filters, stated as a proposition:
entry `c` at position `i` is dropped when another position `q.1` holds a
string `q.2` of which `c` is a contiguous substring and whose
whitespace-split word set contains every word of `c`. -/
def DroppedAt (l : List String) (i : Nat) (c : String) : Prop :=
  ∃ q ∈ l.enum, q.1 ≠ i ∧ c.toList <:+: q.2.toList ∧
    ∀ w ∈ pySplit c, w ∈ pySplit q.2

instance (l : List String) (i : Nat) (c : String) : Decidable (DroppedAt l i c) := by
  unfold DroppedAt
  infer_instance

/-- Entities of the acyclic modifier chain of the spec: `1` modifies `2`,
`2` modifies `3`. -/
def chainAnn : Annotations :=
  [("1", ⟨"left", "Observation::definitely present", 0, 0, [("modify", "2")]⟩),
   ("2", ⟨"lower", "Observation::definitely present", 1, 1, [("modify", "3")]⟩),
   ("3", ⟨"pneumonia", "Observation::uncertain", 2, 2, []⟩)]

/-- The `obs_modified_by_obs` adjacency map of `chainAnn`: the modifier
lists keyed by modified entity. -/
def chainD : AdjMap := [("2", ["1"]), ("3", ["2"])]

/-- A document whose only relation is a `modify` edge to the missing id
`99`. -/
def docDanglingModify : RadDoc :=
  ⟨[("1", ⟨"air", "Observation::definitely present", 0, 0, [("modify", "99")]⟩)], "t"⟩

/-- A one-entity document whose main observation has a `located_at` edge to
the id `m`. -/
def docLoc (m : String) : RadDoc :=
  ⟨[("1", ⟨"air", "Observation::definitely present", 0, 0, [("located_at", m)]⟩)], "t"⟩

/-- A one-entity document whose main observation has a `suggestive_of` edge
to the id `m`. -/
def docSugg (m : String) : RadDoc :=
  ⟨[("1", ⟨"air", "Observation::definitely present", 0, 0, [("suggestive_of", m)]⟩)], "t"⟩

/-- A document whose anatomy target `2` has a modifier `3` carrying the same
token text `lung` at a different offset. -/
def docDupToken : RadDoc :=
  ⟨[("1", ⟨"opacity", "Observation::definitely present", 0, 0, [("located_at", "2")]⟩),
    ("2", ⟨"lung", "Anatomy::definitely present", 5, 5, []⟩),
    ("3", ⟨"lung", "Anatomy::definitely present", 2, 2, [("modify", "2")]⟩)], "t"⟩

/-- A one-observation document with an uncertain label. -/
def docUncertain : RadDoc :=
  ⟨[("1", ⟨"edema", "Observation::uncertain", 1, 1, []⟩)], "t"⟩

/-- A document with a main observation `1` modified by `2`. -/
def docModified : RadDoc :=
  ⟨[("1", ⟨"opacity", "Observation::definitely present", 3, 3, []⟩),
    ("2", ⟨"increased", "Observation::definitely present", 0, 0, [("modify", "1")]⟩)], "t"⟩

/-- A document whose dangling located_at target `99` hangs off the
observation `1`, which is not a main observation (it modifies `2`); only
`2` is a main observation. -/
def docNonMainLoc : RadDoc :=
  ⟨[("1", ⟨"opacity", "Observation::definitely present", 0, 0,
      [("modify", "2"), ("located_at", "99")]⟩),
    ("2", ⟨"edema", "Observation::definitely present", 1, 1, []⟩)], "t"⟩

/-- Lookup in a plain string-keyed dict. -/
def lookupS (m : List (String × String)) (k : String) : Option String :=
  (m.find? (fun p => p.1 == k)).map Prod.snd

/-- Two entities sharing the same start offset. -/
def entsSameStart : Annotations :=
  [("1", ⟨"a", "Anatomy::definitely present", 0, 0, []⟩),
   ("2", ⟨"b", "Observation::definitely present", 0, 0, []⟩)]

/-! ## Helper lemmas -/

theorem mem_pyDedupGo [DecidableEq α] (l : List α) (x : α) :
    ∀ prev, x ∈ pyDedupGo prev l ↔ x ∈ l ∧ x ∉ prev := by
  induction l with
  | nil => intro prev; simp [pyDedupGo]
  | cons a l ih =>
    intro prev
    rw [pyDedupGo]
    split_ifs with ha
    · rw [ih]
      simp only [List.mem_append, List.mem_singleton, List.mem_cons,
        List.not_mem_nil, or_false, not_or]
      constructor
      · rintro ⟨hl, hp, hna⟩
        exact ⟨Or.inr hl, hp⟩
      · rintro ⟨hx | hl, hp⟩
        · exact absurd (hx.symm ▸ ha) hp
        · refine ⟨hl, hp, ?_⟩
          rintro rfl
          exact hp ha
    · rw [List.mem_cons, ih]
      simp only [List.mem_append, List.mem_singleton, List.mem_cons,
        List.not_mem_nil, or_false, not_or]
      constructor
      · rintro (rfl | ⟨hl, hp, hna⟩)
        · exact ⟨Or.inl rfl, ha⟩
        · exact ⟨Or.inr hl, hp⟩
      · rintro ⟨hx | hl, hp⟩
        · exact Or.inl hx
        · by_cases hxa : x = a
          · exact Or.inl hxa
          · exact Or.inr ⟨hl, hp, hxa⟩

theorem nodup_pyDedupGo [DecidableEq α] (l : List α) :
    ∀ prev, (pyDedupGo prev l).Nodup := by
  induction l with
  | nil => intro prev; simp [pyDedupGo]
  | cons a l ih =>
    intro prev
    rw [pyDedupGo]
    split_ifs with ha
    · exact ih _
    · refine List.Nodup.cons ?_ (ih _)
      intro hmem
      rw [mem_pyDedupGo] at hmem
      exact hmem.2 (by simp)

theorem pyDedupGo_sublist [DecidableEq α] (l : List α) :
    ∀ prev, List.Sublist (pyDedupGo prev l) l := by
  induction l with
  | nil => intro prev; simp [pyDedupGo]
  | cons a l ih =>
    intro prev
    rw [pyDedupGo]
    split_ifs with ha
    · exact (ih _).trans (List.sublist_cons_self a l)
    · exact (ih _).cons₂ a

theorem mem_pyDedup [DecidableEq α] (l : List α) (x : α) :
    x ∈ pyDedup l ↔ x ∈ l := by
  rw [pyDedup, mem_pyDedupGo]; simp

theorem nodup_pyDedup [DecidableEq α] (l : List α) : (pyDedup l).Nodup :=
  nodup_pyDedupGo l []

theorem pyDedup_sublist [DecidableEq α] (l : List α) :
    List.Sublist (pyDedup l) l :=
  pyDedupGo_sublist l []

theorem sortInts_sorted (l : List Int) : (sortInts l).Sorted (· ≤ ·) :=
  List.sorted_insertionSort _ l

theorem sortInts_perm (l : List Int) : (sortInts l).Perm l :=
  List.perm_insertionSort _ l

theorem pairwise_lt_of_sorted_nodup {l : List Int}
    (hs : l.Sorted (· ≤ ·)) (hn : l.Nodup) : l.Pairwise (· < ·) :=
  (hs.and hn).imp (fun h => lt_of_le_of_ne h.1 h.2)

/-- The sorted-then-deduplicated index lists of the observation path are
strictly increasing and have the same members as the input list. -/
theorem pyDedup_sortInts_spec (l : List Int) :
    (pyDedup (sortInts l)).Pairwise (· < ·) ∧
      ∀ x, x ∈ pyDedup (sortInts l) ↔ x ∈ l := by
  constructor
  · exact pairwise_lt_of_sorted_nodup
      (List.Pairwise.sublist (pyDedup_sublist _) (sortInts_sorted l)) (nodup_pyDedup _)
  · intro x
    rw [mem_pyDedup, (sortInts_perm l).mem_iff]

/-- When no accumulated or pending entry equals the "opposite" tuple of a
pending entry, the accumulation loop of `filter_loop` keeps everything. -/
theorem filter_loopGo_all_kept (rest : AdjMap) :
    ∀ acc, (∀ p ∈ rest, ∀ q, q ∈ acc ∨ q ∈ rest → q ≠ (p.2.headI, [p.1])) →
      filter_loopGo acc rest = acc ++ rest := by
  induction rest with
  | nil => intro acc _; simp [filter_loopGo]
  | cons p rest ih =>
    intro acc h
    obtain ⟨k, v⟩ := p
    rw [filter_loopGo, if_neg (fun hmem =>
      h (k, v) (List.mem_cons_self _ _) _ (Or.inl hmem) rfl)]
    rw [ih (acc ++ [(k, v)])]
    · simp
    · intro p' hp' q hq
      rcases hq with hq | hq
      · rcases List.mem_append.mp hq with hq | hq
        · exact h p' (List.mem_cons_of_mem _ hp') _ (Or.inl hq)
        · refine h p' (List.mem_cons_of_mem _ hp') _ (Or.inr ?_)
          simp only [List.mem_singleton] at hq
          exact hq ▸ List.mem_cons_self _ _
      · exact h p' (List.mem_cons_of_mem _ hp') _ (Or.inr (List.mem_cons_of_mem _ hq))

theorem lookupA_error {ann : Annotations} {ind : String} {e : RgErr}
    (h : lookupA ann ind = .error e) : e = .keyError ind := by
  unfold lookupA at h
  split at h
  · simp at h
  · injection h with he
    exact he.symm

theorem mem_adjValueIds_of_mem {d : AdjMap} {p : String × List String}
    (hp : p ∈ d) {c : String} (hc : c ∈ p.2) : c ∈ adjValueIds d := by
  induction d with
  | nil => cases hp
  | cons q d ih =>
    simp only [adjValueIds, List.foldr_cons] at *
    rcases List.mem_cons.mp hp with rfl | hp'
    · exact Finset.mem_union_left _ (List.mem_toFinset.mpr hc)
    · exact Finset.mem_union_right _ (ih hp')

theorem mem_adjValueIds {d : AdjMap} {ind : String} {vs : List String}
    (h : lookupAdj d ind = some vs) {c : String} (hc : c ∈ vs) :
    c ∈ adjValueIds d := by
  unfold lookupAdj at h
  cases hf : d.find? (fun p => p.1 == ind) with
  | none => rw [hf] at h; simp at h
  | some p =>
    rw [hf] at h
    simp only [Option.map_some', Option.some.injEq] at h
    exact mem_adjValueIds_of_mem (List.mem_of_find?_eq_some hf) (h ▸ hc)

theorem rmList_mono
    (rm : Finset String → String → Except RgErr (List RMTuple × Finset String))
    (H : ∀ v c r v', rm v c = .ok (r, v') → v ⊆ v') :
    ∀ (l : List String) (v : Finset String) (r : List RMTuple) (v' : Finset String),
      rmList rm v l = .ok (r, v') → v ⊆ v' := by
  intro l
  induction l with
  | nil =>
    intro v r v' h
    simp only [rmList, Except.ok.injEq, Prod.mk.injEq] at h
    exact h.2 ▸ Finset.Subset.refl v
  | cons c cs ih =>
    intro v r v' h
    simp only [rmList] at h
    split at h
    · simp at h
    · next pr hc =>
      split at h
      · simp at h
      · next qr hcs =>
        simp only [Except.ok.injEq, Prod.mk.injEq] at h
        exact h.2 ▸ (H v c pr.1 pr.2 hc).trans (ih pr.2 qr.1 qr.2 hcs)

theorem rmFuel_mono (ann : Annotations) (d : AdjMap) :
    ∀ (f : Nat) (v : Finset String) (ind : String) (r : List RMTuple)
      (v' : Finset String), rmFuel ann d f v ind = .ok (r, v') → v ⊆ v' := by
  intro f
  induction f with
  | zero => intro v ind r v' h; simp [rmFuel] at h
  | succ f ih =>
    intro v ind r v' h
    simp only [rmFuel] at h
    split at h
    · simp only [Except.ok.injEq, Prod.mk.injEq] at h
      exact h.2 ▸ Finset.Subset.refl v
    · split at h
      · split at h
        · simp at h
        · simp only [Except.ok.injEq, Prod.mk.injEq] at h
          exact h.2 ▸ Finset.subset_insert ind v
      · next children hl =>
        split at h
        · simp at h
        · next pr hc =>
          split at h
          · simp at h
          · simp only [Except.ok.injEq, Prod.mk.injEq] at h
            have hsub : insert ind v ⊆ pr.2 :=
              rmList_mono _ (fun vv c r' v'' hh => ih vv c r' v'' hh)
                children (insert ind v) pr.1 pr.2 hc
            exact h.2 ▸ (Finset.subset_insert ind v).trans hsub

theorem rmList_no_rec
    (rm : Finset String → String → Except RgErr (List RMTuple × Finset String))
    (Hmono : ∀ v c r v', rm v c = .ok (r, v') → v ⊆ v') :
    ∀ (l : List String) (v : Finset String),
      (∀ v' c, c ∈ l → v ⊆ v' → rm v' c ≠ .error .recursionError) →
      rmList rm v l ≠ .error .recursionError := by
  intro l
  induction l with
  | nil => intro v _ h; simp [rmList] at h
  | cons c cs ih =>
    intro v Hsafe h
    simp only [rmList] at h
    split at h
    · next e hc =>
      injection h with he
      exact Hsafe v c (List.mem_cons_self _ _) (Finset.Subset.refl v) (he ▸ hc)
    · next pr hc =>
      split at h
      · next e hcs =>
        injection h with he
        refine ih pr.2 ?_ (he ▸ hcs)
        intro v' c' hc' hsub'
        exact Hsafe v' c' (List.mem_cons_of_mem _ hc')
          ((Hmono v c pr.1 pr.2 hc).trans hsub')
      · simp at h

theorem rmFuel_no_recursionError (ann : Annotations) (d : AdjMap) :
    ∀ (f : Nat) (v : Finset String) (ind : String),
      (insert ind (adjValueIds d) \ v).card < f →
      rmFuel ann d f v ind ≠ .error .recursionError := by
  intro f
  induction f with
  | zero => intro v ind hcard; exact absurd hcard (Nat.not_lt_zero _)
  | succ f ih =>
    intro v ind hcard h
    simp only [rmFuel] at h
    split at h
    · simp at h
    · next hv =>
      split at h
      · split at h
        · next e ha =>
          injection h with he
          exact RgErr.noConfusion (he ▸ lookupA_error ha)
        · simp at h
      · next children hl =>
        have hBA : adjValueIds d \ insert ind v ⊂ insert ind (adjValueIds d) \ v := by
          constructor
          · intro x hx
            simp only [Finset.mem_sdiff, Finset.mem_insert, not_or] at hx ⊢
            exact ⟨Or.inr hx.1, hx.2.2⟩
          · intro hsub
            have hmem : ind ∈ insert ind (adjValueIds d) \ v :=
              Finset.mem_sdiff.mpr ⟨Finset.mem_insert_self _ _, hv⟩
            have := Finset.mem_sdiff.mp (hsub hmem)
            exact this.2 (Finset.mem_insert_self _ _)
        have hB : (adjValueIds d \ insert ind v).card < f :=
          lt_of_lt_of_le (Finset.card_lt_card hBA) (Nat.lt_succ_iff.mp hcard)
        have hsafe : ∀ v' c, c ∈ children → insert ind v ⊆ v' →
            rmFuel ann d f v' c ≠ .error .recursionError := by
          intro v' c hcmem hsub'
          apply ih
          have hcU : c ∈ adjValueIds d := mem_adjValueIds hl hcmem
          rw [Finset.insert_eq_self.mpr hcU]
          calc (adjValueIds d \ v').card
              ≤ (adjValueIds d \ insert ind v).card :=
                Finset.card_le_card
                  (Finset.sdiff_subset_sdiff (Finset.Subset.refl _) hsub')
            _ < f := hB
        split at h
        · next e hc =>
          injection h with he
          exact rmList_no_rec _
            (fun vv c r' v'' hh => rmFuel_mono ann d f vv c r' v'' hh)
            children (insert ind v) hsafe (he ▸ hc)
        · next pr hc =>
          split at h
          · next e ha =>
            injection h with he
            exact RgErr.noConfusion (he ▸ lookupA_error ha)
          · simp at h

theorem subDrop_eq_true_iff (l : List String) (i : Nat) (c : String) :
    subDrop l i c = true ↔ DroppedAt l i c := by
  simp only [subDrop, DroppedAt, List.any_eq_true, Bool.and_eq_true, bne_iff_ne,
    strIn, decide_eq_true_eq, List.all_eq_true, List.contains, List.elem_iff]
  constructor
  · rintro ⟨q, hq, ⟨hne, hin⟩, hall⟩
    exact ⟨q, hq, hne.symm, hin, hall⟩
  · rintro ⟨q, hq, hne, hin, hall⟩
    exact ⟨q, hq, ⟨hne.symm, hin⟩, hall⟩

theorem mem_enumFrom_of_mem {α : Type _} {l : List α} {s : α} (h : s ∈ l) :
    ∀ n, ∃ j, (j, s) ∈ l.enumFrom n ∧ n ≤ j := by
  induction l with
  | nil => cases h
  | cons a l ih =>
    intro n
    rcases List.mem_cons.mp h with rfl | h'
    · refine ⟨n, ?_, le_refl n⟩
      simp [List.enumFrom]
    · obtain ⟨j, hj, hnj⟩ := ih h' (n + 1)
      exact ⟨j, List.mem_cons_of_mem _ hj, by omega⟩

theorem exists_second_enumFrom {α : Type _} [DecidableEq α] {l : List α}
    {s : α} {i : Nat} :
    ∀ n, 2 ≤ l.count s → (i, s) ∈ l.enumFrom n →
      ∃ j, j ≠ i ∧ (j, s) ∈ l.enumFrom n := by
  induction l with
  | nil => intro n _ hm; cases hm
  | cons a l ih =>
    intro n hc hm
    simp only [List.enumFrom] at hm
    rcases List.mem_cons.mp hm with heq | hm'
    · have hi : i = n := congrArg Prod.fst heq
      have hs : s = a := congrArg Prod.snd heq
      subst hi
      subst hs
      have hmem : s ∈ l := by
        rw [List.count_cons] at hc
        rw [show (s == s) = true from beq_self_eq_true s, if_pos rfl] at hc
        have : 1 ≤ l.count s := by omega
        exact List.count_pos_iff.mp this
      obtain ⟨j, hj, hnj⟩ := mem_enumFrom_of_mem hmem (i + 1)
      refine ⟨j, by omega, ?_⟩
      simp only [List.enumFrom]
      exact List.mem_cons_of_mem _ hj
    · by_cases has : a = s
      · have hge : n + 1 ≤ i := (List.mem_enumFrom hm').1
        refine ⟨n, by omega, ?_⟩
        simp only [List.enumFrom, has]
        exact List.mem_cons_self _ _
      · have hc' : 2 ≤ l.count s := by
          rw [List.count_cons] at hc
          have : (a == s) = false := beq_eq_false_iff_ne.mpr has
          rw [this] at hc
          simpa using hc
        obtain ⟨j, hij, hj⟩ := ih (n + 1) hc' hm'
        refine ⟨j, hij, ?_⟩
        simp only [List.enumFrom]
        exact List.mem_cons_of_mem _ hj

theorem foldl_preserves {α β : Type _} {P : β → Prop} (f : β → α → β) :
    ∀ (l : List α) (init : β), (∀ b a, a ∈ l → P b → P (f b a)) → P init →
      P (l.foldl f init) := by
  intro l
  induction l with
  | nil => intro init _ h; exact h
  | cons a l ih =>
    intro init hstep hinit
    rw [List.foldl_cons]
    exact ih (f init a) (fun b x hx hb => hstep b x (List.mem_cons_of_mem _ hx) hb)
      (hstep init a (List.mem_cons_self _ _) hinit)

theorem mapME_ok_forall {α β : Type _} {f : α → Except RgErr β} :
    ∀ {l : List α} {ys : List β}, mapME f l = .ok ys → ∀ x ∈ l, ∃ y, f x = .ok y := by
  intro l
  induction l with
  | nil => intro ys _ x hx; cases hx
  | cons a l ih =>
    intro ys h x hx
    simp only [mapME] at h
    split at h
    · exact absurd h (by simp)
    · next b hb =>
      split at h
      · exact absurd h (by simp)
      · next bs hbs =>
        rcases List.mem_cons.mp hx with rfl | hx'
        · exact ⟨b, hb⟩
        · exact ih hbs x hx'

theorem mapME_error_exists {α β : Type _} {f : α → Except RgErr β} :
    ∀ {l : List α} {e : RgErr}, mapME f l = .error e → ∃ x ∈ l, f x = .error e := by
  intro l
  induction l with
  | nil => intro e h; simp [mapME] at h
  | cons a l ih =>
    intro e h
    simp only [mapME] at h
    split at h
    · next e1 ha =>
      injection h with he
      exact ⟨a, List.mem_cons_self _ _, he ▸ ha⟩
    · next b hb =>
      split at h
      · next e1 hbs =>
        injection h with he
        obtain ⟨x, hx, hfx⟩ := ih (he ▸ hbs)
        exact ⟨x, List.mem_cons_of_mem _ hx, hfx⟩
      · exact absurd h (by simp)

theorem mapME_ok_of_forall {α β : Type _} {f : α → Except RgErr β} :
    ∀ (l : List α), (∀ x ∈ l, ∃ y, f x = .ok y) → ∃ ys, mapME f l = .ok ys := by
  intro l
  induction l with
  | nil => intro _; exact ⟨[], rfl⟩
  | cons a l ih =>
    intro h
    obtain ⟨y, hy⟩ := h a (List.mem_cons_self _ _)
    obtain ⟨ys, hys⟩ := ih (fun x hx => h x (List.mem_cons_of_mem _ hx))
    refine ⟨y :: ys, ?_⟩
    simp only [mapME, hy, hys]

theorem filter_loopGo_subset :
    ∀ (rest acc : AdjMap) (p : String × List String),
      p ∈ filter_loopGo acc rest → p ∈ acc ∨ p ∈ rest := by
  intro rest
  induction rest with
  | nil =>
    intro acc p h
    exact Or.inl (by simpa [filter_loopGo] using h)
  | cons q rest ih =>
    intro acc p h
    obtain ⟨k, v⟩ := q
    rw [filter_loopGo] at h
    split_ifs at h with hmem
    · rcases ih acc p h with h' | h'
      · exact Or.inl h'
      · exact Or.inr (List.mem_cons_of_mem _ h')
    · rcases ih (acc ++ [(k, v)]) p h with h' | h'
      · rcases List.mem_append.mp h' with h'' | h''
        · exact Or.inl h''
        · rw [List.mem_singleton] at h''
          exact Or.inr (h'' ▸ List.mem_cons_self _ _)
      · exact Or.inr (List.mem_cons_of_mem _ h')

theorem filter_loop_subset {d : AdjMap} {p : String × List String}
    (h : p ∈ filter_loop d) : p ∈ d := by
  rcases filter_loopGo_subset d [] p h with h' | h'
  · exact absurd h' (List.not_mem_nil p)
  · exact h'

theorem mem_of_mem_adjValueIds :
    ∀ (d : AdjMap) (c : String), c ∈ adjValueIds d → ∃ p ∈ d, c ∈ p.2 := by
  intro d
  induction d with
  | nil => intro c h; simp [adjValueIds] at h
  | cons q rest ih =>
    intro c h
    simp only [adjValueIds, List.foldr_cons] at h
    rcases Finset.mem_union.mp h with h' | h'
    · exact ⟨q, List.mem_cons_self _ _, List.mem_toFinset.mp h'⟩
    · obtain ⟨p, hp, hc⟩ := ih c h'
      exact ⟨p, List.mem_cons_of_mem _ hp, hc⟩

theorem lookupA_ok_of_mem {es : Annotations} {p : String × Entity} (hp : p ∈ es) :
    ∃ e', lookupA es p.1 = .ok e' := by
  unfold lookupA
  have hsome : (es.find? (fun q => q.1 == p.1)).isSome = true := by
    rw [List.find?_isSome]
    exact ⟨p, hp, by simp⟩
  obtain ⟨q, hq⟩ := Option.isSome_iff_exists.mp hsome
  rw [hq]
  exact ⟨q.2, rfl⟩

theorem appendAdj_values {Q : String → Prop} {m : AdjMap} {k v : String}
    (hbase : ∀ p ∈ m, ∀ x ∈ p.2, Q x) (hv : Q v) :
    ∀ p ∈ appendAdj m k v, ∀ x ∈ p.2, Q x := by
  unfold appendAdj
  split_ifs with hany
  · intro p hp x hx
    obtain ⟨q, hq, heq⟩ := List.mem_map.mp hp
    by_cases hqk : (q.1 == k) = true
    · rw [if_pos hqk] at heq
      have hx2 : x ∈ q.2 ++ [v] := by
        rw [← heq] at hx
        exact hx
      rcases List.mem_append.mp hx2 with hx' | hx'
      · exact hbase q hq x hx'
      · rw [List.mem_singleton] at hx'
        exact hx' ▸ hv
    · rw [if_neg hqk] at heq
      exact hbase q hq x (by rw [heq]; exact hx)
  · intro p hp x hx
    rcases List.mem_append.mp hp with hp' | hp'
    · exact hbase p hp' x hx
    · rw [List.mem_singleton] at hp'
      have hx2 : x ∈ [v] := by
        rw [hp'] at hx
        exact hx
      rw [List.mem_singleton] at hx2
      exact hx2 ▸ hv

theorem rmList_error_exists
    (rm : Finset String → String → Except RgErr (List RMTuple × Finset String)) :
    ∀ (l : List String) (v : Finset String) (e : RgErr),
      rmList rm v l = .error e → ∃ v₀ c, c ∈ l ∧ rm v₀ c = .error e := by
  intro l
  induction l with
  | nil => intro v e h; simp [rmList] at h
  | cons c cs ih =>
    intro v e h
    simp only [rmList] at h
    split at h
    · next e1 hc =>
      injection h with he
      exact ⟨v, c, List.mem_cons_self _ _, he ▸ hc⟩
    · next pr hc =>
      split at h
      · next e1 hcs =>
        injection h with he
        obtain ⟨v₀, c', hc', hrc⟩ := ih pr.2 e1 hcs
        exact ⟨v₀, c', List.mem_cons_of_mem _ hc', he ▸ hrc⟩
      · exact absurd h (by simp)

/-- Every error of the bounded traversal is either the recursion marker or
a `KeyError` naming an id that is genuinely missing from the entity mapping
and that is either the start id or an id stored in the adjacency map's
value lists. -/
theorem rmFuel_error_char (ann : Annotations) (d : AdjMap) :
    ∀ (f : Nat) (v : Finset String) (ind : String) (e : RgErr),
      rmFuel ann d f v ind = .error e →
      e = .recursionError ∨ ∃ m, e = .keyError m ∧ (m = ind ∨ m ∈ adjValueIds d) ∧
        lookupA ann m = .error (.keyError m) := by
  intro f
  induction f with
  | zero =>
    intro v ind e h
    simp only [rmFuel] at h
    injection h with he
    exact Or.inl he.symm
  | succ f ih =>
    intro v ind e h
    simp only [rmFuel] at h
    split at h
    · exact absurd h (by simp)
    · split at h
      · split at h
        · next e1 ha =>
          injection h with he
          refine Or.inr ⟨ind, ?_, Or.inl rfl, ?_⟩
          · rw [← he]
            exact lookupA_error ha
          · rw [ha, lookupA_error ha]
        · exact absurd h (by simp)
      · next children hl =>
        split at h
        · next e1 hc =>
          injection h with he
          obtain ⟨v₀, c, hcmem, hrc⟩ := rmList_error_exists _ children _ e1 hc
          rcases ih v₀ c e1 hrc with hrec | ⟨m, hm, hprov, hmiss⟩
          · exact Or.inl (by rw [← he, hrec])
          · refine Or.inr ⟨m, by rw [← he, hm], Or.inr ?_, hmiss⟩
            rcases hprov with rfl | hmem
            · exact mem_adjValueIds hl hcmem
            · exact hmem
        · next pr hc =>
          split at h
          · next e1 ha =>
            injection h with he
            refine Or.inr ⟨ind, ?_, Or.inl rfl, ?_⟩
            · rw [← he]
              exact lookupA_error ha
            · rw [ha, lookupA_error ha]
          · exact absurd h (by simp)

theorem recursive_modifier_error_char (ann : Annotations) (ind : String)
    (d : AdjMap) (e : RgErr) (h : recursive_modifier ann ind d = .error e) :
    ∃ m, e = .keyError m ∧ (m = ind ∨ m ∈ adjValueIds d) ∧
      lookupA ann m = .error (.keyError m) := by
  rcases rmFuel_error_char ann d ((adjValueIds d).card + 2) ∅ ind e h with hrec | hgood
  · exfalso
    have hb : (insert ind (adjValueIds d) \ ∅).card < (adjValueIds d).card + 2 := by
      rw [Finset.sdiff_empty]
      exact lt_of_le_of_lt (Finset.card_insert_le _ _) (by omega)
    exact rmFuel_no_recursionError ann d ((adjValueIds d).card + 2) ∅ ind hb
      (by rw [hrec] at h; exact h)
  · exact hgood

theorem rmFuel_missing_error (ann : Annotations) (d : AdjMap) (f : Nat)
    (v : Finset String) (ind : String) (er : RgErr) (hv : ind ∉ v)
    (h : lookupA ann ind = .error er) :
    ∃ e, rmFuel ann d (f + 1) v ind = .error e := by
  simp only [rmFuel]
  rw [if_neg hv]
  cases hl : lookupAdj d ind with
  | none =>
    simp only [h]
    exact ⟨er, rfl⟩
  | some children =>
    show ∃ e, (match rmList (fun vv c => rmFuel ann d f vv c) (insert ind v) children with
      | Except.error e => (Except.error e : Except RgErr (List RMTuple × Finset String))
      | Except.ok pr =>
        match lookupA ann ind with
        | Except.error e => Except.error e
        | Except.ok e => Except.ok (pr.1 ++ [entTuple e], pr.2)) = Except.error e
    cases hres : rmList (fun vv c => rmFuel ann d f vv c) (insert ind v) children with
    | error e1 => exact ⟨e1, rfl⟩
    | ok pr =>
      simp only [h]
      exact ⟨er, rfl⟩

theorem recursive_modifier_error_of_missing (ann : Annotations) (ind : String)
    (d : AdjMap) (er : RgErr) (h : lookupA ann ind = .error er) :
    ∃ e, recursive_modifier ann ind d = .error e :=
  rmFuel_missing_error ann d ((adjValueIds d).card + 1) ∅ ind er
    (Finset.not_mem_empty ind) h

theorem recursive_modifier_ok_of_valid (ann : Annotations) (ind : String)
    (d : AdjMap) (ha : ∃ e', lookupA ann ind = .ok e')
    (hall : ∀ c ∈ adjValueIds d, ∃ e', lookupA ann c = .ok e') :
    ∃ pr, recursive_modifier ann ind d = .ok pr := by
  cases hres : recursive_modifier ann ind d with
  | ok pr => exact ⟨pr, rfl⟩
  | error e =>
    exfalso
    obtain ⟨m, _, hprov, hmiss⟩ := recursive_modifier_error_char ann ind d e hres
    rcases hprov with rfl | hmem
    · obtain ⟨e', he'⟩ := ha
      rw [he'] at hmiss
      exact Except.noConfusion hmiss
    · obtain ⟨e', he'⟩ := hall m hmem
      rw [he'] at hmiss
      exact Except.noConfusion hmiss

theorem relInner_preserves (es : Annotations) (index lab : String) (r : Relation)
    (st : IndexState) (hidx : ∃ e', lookupA es index = .ok e')
    (hP : MapsValid es st) :
    MapsValid es (
      let st1 := if relMem "modify" r && strIn "Observation" lab then
        { st with obs_modified_by_obs := appendAdj st.obs_modified_by_obs r.2 index }
      else st
      let st2 := if relMem "modify" r && strIn "Anatomy" lab then
        { st1 with anat_modify_anat := appendAdj st1.anat_modify_anat r.2 index }
      else st1
      let st3 := if relMem "located_at" r && strIn "Observation" lab then
        { st2 with obs_located_anat := appendAdj st2.obs_located_anat index r.2 }
      else st2
      if relMem "suggestive_of" r && strIn "Observation" lab then
        { st3 with obs_suggest_obs := appendAdj st3.obs_suggest_obs index r.2 }
      else st3) := by
  have s1 : ∀ s : IndexState, MapsValid es s → MapsValid es
      (if relMem "modify" r && strIn "Observation" lab then
        { s with obs_modified_by_obs := appendAdj s.obs_modified_by_obs r.2 index }
      else s) := by
    intro s hs
    split_ifs
    · exact ⟨appendAdj_values hs.1 hidx, hs.2.1, hs.2.2⟩
    · exact hs
  have s2 : ∀ s : IndexState, MapsValid es s → MapsValid es
      (if relMem "modify" r && strIn "Anatomy" lab then
        { s with anat_modify_anat := appendAdj s.anat_modify_anat r.2 index }
      else s) := by
    intro s hs
    split_ifs
    · exact ⟨hs.1, appendAdj_values hs.2.1 hidx, hs.2.2⟩
    · exact hs
  have s3 : ∀ s : IndexState, MapsValid es s → MapsValid es
      (if relMem "located_at" r && strIn "Observation" lab then
        { s with obs_located_anat := appendAdj s.obs_located_anat index r.2 }
      else s) := by
    intro s hs
    split_ifs
    · exact ⟨hs.1, hs.2.1, hs.2.2⟩
    · exact hs
  have s4 : ∀ s : IndexState, MapsValid es s → MapsValid es
      (if relMem "suggestive_of" r && strIn "Observation" lab then
        { s with obs_suggest_obs := appendAdj s.obs_suggest_obs index r.2 }
      else s) := by
    intro s hs
    split_ifs
    · exact ⟨hs.1, hs.2.1, hs.2.2⟩
    · exact hs
  exact s4 _ (s3 _ (s2 _ (s1 _ hP)))

/-- The relation indexer only stores entity-mapping keys in the value lists
of the two modifier maps and as main-observation indices. -/
theorem relIndex_valid (es : Annotations) : MapsValid es (relIndex es) := by
  unfold relIndex
  apply foldl_preserves
  · intro st p hp hP
    have hidx : ∃ e', lookupA es p.1 = .ok e' := lookupA_ok_of_mem hp
    unfold relStep
    have houter : MapsValid es
        (if strIn "Observation" p.2.label &&
            !((p.2.relations.map Prod.fst).contains "modify") then
          { st with all_observations :=
              st.all_observations ++ [(p.1, p.2.tokens, p.2.label)] }
        else st) := by
      split_ifs
      · refine ⟨hP.1, hP.2.1, ?_⟩
        intro o ho
        rcases List.mem_append.mp ho with ho' | ho'
        · exact hP.2.2 o ho'
        · rw [List.mem_singleton] at ho'
          rw [ho']
          exact hidx
      · exact hP
    exact foldl_preserves _ p.2.relations _
      (fun b r hr hb => relInner_preserves es p.1 p.2.label r b hidx hb) houter
  · exact ⟨fun p hp => absurd hp (List.not_mem_nil p),
      fun p hp => absurd hp (List.not_mem_nil p),
      fun o ho => absurd ho (List.not_mem_nil o)⟩

theorem locPart_eq_some (ann : Annotations) (anat_map located_map : AdjMap)
    (oi : String) (targets : List String)
    (hl : lookupAdj located_map oi = some targets) :
    locPart ann anat_map located_map oi =
      match mapME (locatedEntry ann anat_map) targets with
      | .error e => .error e
      | .ok entries =>
        .ok (substring_filter_ix (entries.map (fun q => q.1))
          (entries.map (fun q => q.2.1))) := by
  unfold locPart
  rw [hl]

theorem suggPart_eq_some (ann : Annotations) (suggest_map : AdjMap)
    (oi tokens : String) (targets : List String)
    (hl : lookupAdj suggest_map oi = some targets) :
    suggPart ann suggest_map oi tokens =
      match mapME (suggestEntry ann tokens) targets with
      | .error e => .error e
      | .ok recs => .ok (some (substring_filter recs)) := by
  unfold suggPart
  rw [hl]

theorem locPart_error_char (ann : Annotations) (anat_map located_map : AdjMap)
    (oi : String) (e : RgErr) (h : locPart ann anat_map located_map oi = .error e) :
    ∃ m, e = .keyError m ∧ lookupA ann m = .error (.keyError m) := by
  unfold locPart at h
  split at h
  · exact absurd h (by simp)
  · next targets hl =>
    split at h
    · next e1 hmm =>
      injection h with he
      obtain ⟨t, _, hte⟩ := mapME_error_exists hmm
      unfold locatedEntry at hte
      split at hte
      · next e2 hrm =>
        injection hte with he2
        obtain ⟨m, hm, _, hmiss⟩ :=
          recursive_modifier_error_char ann t anat_map e2 hrm
        exact ⟨m, by rw [← he, ← he2, hm], hmiss⟩
      · exact absurd hte (by simp)
    · exact absurd h (by simp)

theorem suggPart_error_char (ann : Annotations) (suggest_map : AdjMap)
    (oi tokens : String) (e : RgErr)
    (h : suggPart ann suggest_map oi tokens = .error e) :
    ∃ m, e = .keyError m ∧ lookupA ann m = .error (.keyError m) := by
  unfold suggPart at h
  split at h
  · exact absurd h (by simp)
  · next targets hl =>
    split at h
    · next e1 hmm =>
      injection h with he
      obtain ⟨t, _, hte⟩ := mapME_error_exists hmm
      unfold suggestEntry at hte
      split at hte
      · next e2 hA =>
        injection hte with he2
        refine ⟨t, ?_, ?_⟩
        · rw [← he, ← he2]
          exact lookupA_error hA
        · rw [hA, lookupA_error hA]
      · exact absurd hte (by simp)
    · exact absurd h (by simp)

/-! ## Claim theorems -/

/-- C1 (counterexample): the claim that `filter_loop` returns a map equal to
its input for every adjacency map is false: on the reciprocal pair
`1 -> [2], 2 -> [1]` the equality check does match (the accumulated item
`("1", ["2"])` equals the candidate tuple `("2", ["1"])`'s opposite), so the
second entry is dropped. -/
theorem filter_loop_reciprocal_counterexample :
    filter_loop [("1", ["2"]), ("2", ["1"])] ≠ [("1", ["2"]), ("2", ["1"])] := by
  decide

/-- C1 (amended): `filter_loop` returns its input unchanged whenever no
entry of the map is the "opposite" tuple `(head of value list, [key])` of
another entry (value lists nonempty as produced by the relation indexer);
when such a reciprocal singleton pattern exists, the later entry is
dropped, so the stage is not a no-op in general. -/
theorem filter_loop_noop_of_no_reciprocal (d : AdjMap)
    (_hne : ∀ p ∈ d, p.2 ≠ [])
    (h : ∀ p ∈ d, ∀ q ∈ d, q ≠ (p.2.headI, [p.1])) :
    filter_loop d = d := by
  rw [filter_loop, filter_loopGo_all_kept d []]
  · simp
  · intro p hp q hq
    rcases hq with hq | hq
    · exact absurd hq (List.not_mem_nil q)
    · exact h p hp q hq

/-- C1 witness: a concrete non-reciprocal map is returned unchanged. -/
theorem filter_loop_noop_witness :
    filter_loop [("2", ["1", "3"]), ("5", ["2"])] = [("2", ["1", "3"]), ("5", ["2"])] :=
  filter_loop_noop_of_no_reciprocal _ (by decide) (by decide)

/-- C4: `recursive_modifier` never exhausts its recursion bound: for every
annotation mapping, start id, and adjacency map (cyclic ones included), the
traversal completes — the visited set bounds the recursion depth by the
number of ids occurring in the adjacency map, and the result is a finite
list. -/
theorem recursive_modifier_terminates (ann : Annotations) (ind : String) (d : AdjMap) :
    recursive_modifier ann ind d ≠ .error .recursionError := by
  apply rmFuel_no_recursionError
  calc (insert ind (adjValueIds d) \ ∅).card
      = (insert ind (adjValueIds d)).card := by rw [Finset.sdiff_empty]
    _ ≤ (adjValueIds d).card + 1 := Finset.card_insert_le _ _
    _ < (adjValueIds d).card + 2 := by omega

/-- C5: the traversal of `recursive_modifier` is post-order with
cycle-breaking: an already-visited start id contributes the empty list; an
unvisited id with children listed in the adjacency map is resolved by
traversing the children in list order (threading the visited set) and
appending the id's own tuple last; and on the acyclic chain where `1`
modifies `2` and `2` modifies `3`, resolving `3` yields exactly the tuples
of `1`, `2`, `3`, each once, with `3`'s tuple last. -/
theorem recursive_modifier_postorder :
    (∀ (ann : Annotations) (d : AdjMap) (f : Nat) (v : Finset String) (ind : String),
      ind ∈ v → rmFuel ann d (f + 1) v ind = .ok ([], v)) ∧
    (∀ (ann : Annotations) (d : AdjMap) (f : Nat) (v : Finset String) (ind : String)
      (children : List String), ind ∉ v → lookupAdj d ind = some children →
      rmFuel ann d (f + 1) v ind =
        match rmList (fun vv c => rmFuel ann d f vv c) (insert ind v) children with
        | .error e => .error e
        | .ok pr =>
          match lookupA ann ind with
          | .error e => .error e
          | .ok e => .ok (pr.1 ++ [entTuple e], pr.2)) ∧
    recursive_modifier chainAnn "3" chainD =
      .ok ([("left", "Observation::definitely present", 0, 0),
            ("lower", "Observation::definitely present", 1, 1),
            ("pneumonia", "Observation::uncertain", 2, 2)], {"1", "2", "3"}) := by
  refine ⟨?_, ?_, ?_⟩
  · intro ann d f v ind hv
    simp [rmFuel, hv]
  · intro ann d f v ind children hv hl
    simp [rmFuel, hv, hl]
  · decide

/-- C5 witness: the two conditional parts evaluated at concrete inputs: a
visited start id returns the empty list, and the unfolding equation holds
for the chain's root. -/
theorem recursive_modifier_postorder_witness :
    rmFuel chainAnn chainD 3 {"7"} "7" = .ok ([], {"7"}) ∧
    rmFuel chainAnn chainD 3 ∅ "3" =
      (match rmList (fun vv c => rmFuel chainAnn chainD 2 vv c) (insert "3" ∅) ["2"] with
       | .error e => .error e
       | .ok pr =>
         match lookupA chainAnn "3" with
         | .error e => .error e
         | .ok e => .ok (pr.1 ++ [entTuple e], pr.2)) :=
  ⟨recursive_modifier_postorder.1 chainAnn chainD 2 {"7"} "7" (by decide),
   recursive_modifier_postorder.2.1 chainAnn chainD 2 ∅ "3" ["2"] (by decide) (by decide)⟩

/-- C8: the substring filter keeps exactly the candidates for which no other
position holds a string of which they are a literal substring and word-set
subset, preserves relative order (the output is a sublist of the input),
and maps the concrete input `abdomen / upper abdomen / chest` to
`upper abdomen / chest`. -/
theorem substring_filter_spec :
    (∀ l : List String, substring_filter l =
      (l.enum.filter (fun p => decide (¬ DroppedAt l p.1 p.2))).map Prod.snd) ∧
    (∀ l : List String, List.Sublist (substring_filter l) l) ∧
    substring_filter ["abdomen", "upper abdomen", "chest"] = ["upper abdomen", "chest"] := by
  refine ⟨?_, ?_, ?_⟩
  · intro l
    unfold substring_filter
    congr 1
    apply List.filter_congr
    intro p _
    by_cases hP : DroppedAt l p.1 p.2
    · rw [(subDrop_eq_true_iff l p.1 p.2).mpr hP]
      simp [hP]
    · have hb : subDrop l p.1 p.2 = false := by
        rw [← Bool.not_eq_true]
        exact fun hh => hP ((subDrop_eq_true_iff l p.1 p.2).mp hh)
      rw [hb]
      simp [hP]
  · intro l
    have h2 := List.Sublist.map Prod.snd (List.filter_sublist (l := l.enum)
      (p := fun p => !subDrop l p.1 p.2))
    rw [List.enum_map_snd] at h2
    exact h2
  · decide

/-- C9: a candidate string occurring at two distinct positions is dropped
entirely by the substring filter (each copy is a substring and word-set
subset of the other), so an exactly duplicated phrase does not survive even
as a single occurrence. -/
theorem substring_filter_dup_dropped (l : List String) (s : String)
    (hcount : 2 ≤ l.count s) : s ∉ substring_filter l := by
  intro hmem
  simp only [substring_filter, List.mem_map] at hmem
  obtain ⟨p, hp, hps⟩ := hmem
  rw [List.mem_filter] at hp
  obtain ⟨hpe, hpk⟩ := hp
  have hpair : (p.1, s) ∈ l.enum := by
    have : p = (p.1, s) := by
      rw [← hps]
    rw [← this]
    exact hpe
  obtain ⟨j, hij, hj⟩ := exists_second_enumFrom 0 hcount hpair
  have hdrop : DroppedAt l p.1 p.2 := by
    refine ⟨(j, s), hj, hij, ?_, ?_⟩
    · rw [hps]
    · intro w hw
      rw [hps] at hw
      exact hw
  rw [(subDrop_eq_true_iff l p.1 p.2).mpr hdrop] at hpk
  simp at hpk

/-- C9 witness: the exactly duplicated list `ab, ab` has count two and the
string is absent from the filtered output. -/
theorem substring_filter_dup_dropped_witness :
    2 ≤ List.count "ab" ["ab", "ab"] ∧ "ab" ∉ substring_filter ["ab", "ab"] :=
  ⟨by decide, substring_filter_dup_dropped ["ab", "ab"] "ab" (by decide)⟩

theorem find?_map_fst_preserving {f : (String × String) → (String × String)}
    (hf : ∀ p, (f p).1 = p.1) (m : List (String × String)) (k : String) :
    (m.map f).find? (fun p => p.1 == k) = (m.find? (fun p => p.1 == k)).map f := by
  induction m with
  | nil => rfl
  | cons q m ih =>
    simp only [List.map_cons]
    cases hq : (q.1 == k) with
    | false =>
      have h1 : ¬((fun p : String × String => p.1 == k) (f q) = true) := by
        show ¬(((f q).1 == k) = true)
        rw [hf q, hq]
        simp
      have h2 : ¬((fun p : String × String => p.1 == k) q = true) := by
        show ¬((q.1 == k) = true)
        rw [hq]
        simp
      rw [@List.find?_cons_of_neg _ (fun p => p.1 == k) (f q) (m.map f) h1,
        @List.find?_cons_of_neg _ (fun p => p.1 == k) q m h2, ih]
    | true =>
      have h1 : (fun p : String × String => p.1 == k) (f q) = true := by
        show ((f q).1 == k) = true
        rw [hf q]
        exact hq
      have h2 : (fun p : String × String => p.1 == k) q = true := hq
      rw [@List.find?_cons_of_pos _ (fun p => p.1 == k) (f q) (m.map f) h1,
        @List.find?_cons_of_pos _ (fun p => p.1 == k) q m h2, Option.map_some']

theorem lookupS_dictInsert (m : List (String × String)) (k v k' : String) :
    lookupS (dictInsert m k v) k' = if k' = k then some v else lookupS m k' := by
  unfold dictInsert
  split_ifs with hany hk hk
  · -- key present, query equals key
    subst hk
    unfold lookupS
    rw [find?_map_fst_preserving (fun p => by split <;> rfl)]
    have hsome : (m.find? (fun p => p.1 == k')).isSome = true := by
      rw [List.find?_isSome]
      obtain ⟨p, hpm, hpk⟩ := List.any_eq_true.mp hany
      exact ⟨p, hpm, hpk⟩
    obtain ⟨q, hq⟩ := Option.isSome_iff_exists.mp hsome
    rw [hq, Option.map_some', Option.map_some']
    have hq1 : (q.1 == k') = true := by
      have h := List.find?_some hq
      exact h
    show some (if q.1 == k' then (q.1, v) else q).2 = some v
    rw [if_pos hq1]
  · -- key present, query differs
    unfold lookupS
    rw [find?_map_fst_preserving (fun p => by split <;> rfl)]
    cases hfind : m.find? (fun p => p.1 == k') with
    | none => rfl
    | some q =>
      have hq0 : (q.1 == k') = true := by
        have h := List.find?_some hfind
        exact h
      have hq1 : q.1 = k' := eq_of_beq hq0
      have hqk : (q.1 == k) = false := beq_eq_false_iff_ne.mpr (by rw [hq1]; exact hk)
      rw [Option.map_some', Option.map_some']
      show some (if q.1 == k then (q.1, v) else q).2 = some q.2
      rw [hqk]
      simp
  · -- key absent, query equals key
    subst hk
    unfold lookupS
    rw [List.find?_append]
    have hnone : m.find? (fun p => p.1 == k') = none := by
      rw [List.find?_eq_none]
      intro p hp hpk
      have hx : (m.any fun p => p.1 == k') = true := List.any_eq_true.mpr ⟨p, hp, hpk⟩
      exact hany hx
    rw [hnone]
    simp [List.find?]
  · -- key absent, query differs
    unfold lookupS
    rw [List.find?_append]
    have hne : ((k, v).1 == k') = false := beq_eq_false_iff_ne.mpr (Ne.symm hk)
    have hnone : List.find? (fun p => p.1 == k') [(k, v)] = none := by
      rw [List.find?_eq_none]
      intro p hp hpk
      simp only [List.mem_singleton] at hp
      subst hp
      rw [hne] at hpk
      exact Bool.noConfusion hpk
    rw [hnone, Option.or_none]

theorem keys_dictInsert (m : List (String × String)) (k v : String) :
    (dictInsert m k v).map Prod.fst =
      if m.any (fun p => p.1 == k) then m.map Prod.fst
      else m.map Prod.fst ++ [k] := by
  unfold dictInsert
  split_ifs with hany
  · rw [List.map_map]
    exact List.map_congr_left (fun p _ => by dsimp only [Function.comp]; split <;> rfl)
  · simp

theorem keys_nodup_dictInsert (m : List (String × String)) (k v : String)
    (h : (m.map Prod.fst).Nodup) : ((dictInsert m k v).map Prod.fst).Nodup := by
  rw [keys_dictInsert]
  split_ifs with hany
  · exact h
  · rw [List.nodup_append]
    refine ⟨h, List.nodup_singleton k, ?_⟩
    intro x hx hk
    simp only [List.mem_singleton] at hk
    subst hk
    obtain ⟨p, hp, hpk⟩ := List.mem_map.mp hx
    have hx2 : (m.any fun p => p.1 == x) = true :=
      List.any_eq_true.mpr ⟨p, hp, by rw [hpk]; simp⟩
    exact hany hx2

theorem length_dictInsert (m : List (String × String)) (k v : String) :
    (dictInsert m k v).length ≤ m.length + 1 := by
  unfold dictInsert
  split_ifs with hany
  · rw [List.length_map]
    omega
  · rw [List.length_append]
    simp

theorem build_start_ix_to_label_lookup (entities : Annotations) (k : String) :
    lookupS (build_start_ix_to_label entities) k =
      (entities.reverse.find? (fun p => toString p.2.start_ix == k)).map
        (fun p => p.2.label) := by
  induction entities using List.reverseRecOn with
  | nil => rfl
  | append_singleton es e ih =>
    unfold build_start_ix_to_label at *
    rw [List.foldl_append, List.foldl_cons, List.foldl_nil, lookupS_dictInsert,
      List.reverse_append, List.reverse_singleton, List.singleton_append]
    by_cases hk : k = toString e.2.start_ix
    · rw [if_pos hk, List.find?_cons_of_pos _ (by rw [hk]; simp), Option.map_some']
    · rw [if_neg hk, List.find?_cons_of_neg _ (by
        simp only [beq_iff_eq]
        exact fun hh => hk hh.symm), ih]

theorem build_start_ix_to_label_nodup (entities : Annotations) :
    ((build_start_ix_to_label entities).map Prod.fst).Nodup := by
  unfold build_start_ix_to_label
  suffices h : ∀ m : List (String × String), (m.map Prod.fst).Nodup →
      ((entities.foldl (fun m p =>
        dictInsert m (toString p.2.start_ix) p.2.label) m).map Prod.fst).Nodup by
    exact h [] (by simp)
  induction entities with
  | nil => intro m hm; exact hm
  | cons e es ih =>
    intro m hm
    rw [List.foldl_cons]
    exact ih _ (keys_nodup_dictInsert _ _ _ hm)

theorem build_start_ix_to_label_length (entities : Annotations) :
    (build_start_ix_to_label entities).length ≤ entities.length := by
  unfold build_start_ix_to_label
  suffices h : ∀ m : List (String × String),
      (entities.foldl (fun m p =>
        dictInsert m (toString p.2.start_ix) p.2.label) m).length ≤
        m.length + entities.length by
    simpa using h []
  induction entities with
  | nil => intro m; simp
  | cons e es ih =>
    intro m
    rw [List.foldl_cons]
    calc (es.foldl _ (dictInsert m (toString e.2.start_ix) e.2.label)).length
        ≤ (dictInsert m (toString e.2.start_ix) e.2.label).length + es.length := ih _
      _ ≤ m.length + 1 + es.length := by
          have := length_dictInsert m (toString e.2.start_ix) e.2.label
          omega
      _ = m.length + (es.length + 1) := by omega
      _ = m.length + (e :: es).length := by simp

/-- C10: `start_ix_to_label` is built by mapping the string form of each
entity's start offset to its label over every entity of the document: its
keys are pairwise distinct (exactly one entry per distinct stringified start
offset); looking a key up returns the label of the last entity scanned with
that start offset (later entities overwrite earlier ones); every entity's
start offset is present; and the map never has more entries than there are
entities — strictly fewer when two entities share a start offset, as on the
concrete two-entity example. -/
theorem start_ix_to_label_spec :
    (∀ entities : Annotations,
      ((build_start_ix_to_label entities).map Prod.fst).Nodup) ∧
    (∀ (entities : Annotations) (k : String),
      lookupS (build_start_ix_to_label entities) k =
        (entities.reverse.find? (fun p => toString p.2.start_ix == k)).map
          (fun p => p.2.label)) ∧
    (∀ (entities : Annotations) (p : String × Entity), p ∈ entities →
      (lookupS (build_start_ix_to_label entities)
        (toString p.2.start_ix)).isSome = true) ∧
    (∀ entities : Annotations,
      (build_start_ix_to_label entities).length ≤ entities.length) ∧
    ((build_start_ix_to_label entsSameStart).length = 1 ∧ entsSameStart.length = 2) := by
  refine ⟨build_start_ix_to_label_nodup, build_start_ix_to_label_lookup, ?_,
    build_start_ix_to_label_length, by decide⟩
  intro entities p hp
  rw [build_start_ix_to_label_lookup, Option.isSome_map', List.find?_isSome]
  exact ⟨p, List.mem_reverse.mpr hp, by simp⟩

/-- C10 witness: the shared start offset `0` of the concrete example is a
key of the built map. -/
theorem start_ix_to_label_spec_witness :
    (lookupS (build_start_ix_to_label entsSameStart)
      (toString ((0 : Int)))).isSome = true :=
  start_ix_to_label_spec.2.2.1 entsSameStart
    ("1", ⟨"a", "Anatomy::definitely present", 0, 0, []⟩) (by decide)

/-- C2 (counterexample): the located_at path applies no deduplication: on
`docDupToken` (whose anatomy closure holds two distinct entities both
carrying the token text `lung`) the emitted located_at phrase is
`"lung lung"`, in which the distinct token `lung` appears twice — refuting
the claim that each distinct token appears at most once in a located_at
phrase. -/
theorem located_at_duplicate_token_counterexample :
    (get_radgraph_processed_annotations docDupToken).map
        (fun o => o.processed_annotations.map (fun r => r.located_at)) =
      .ok [["lung lung"]] ∧
    ¬ (pySplit "lung lung").Nodup := by
  exact ⟨by decide, by decide⟩

/-- C2 (amended): each located_at candidate is produced from the anatomy's
modifier closure by reordering and sorting alone, without the deduplication
step of the observation path: the phrase is the space-join (lower-cased,
stripped) of the closure's tokens reordered by start index, and the start
and end index lists are ascending sorts of the closure's offsets with
multiplicity preserved (a permutation, so duplicates persist). -/
theorem located_entry_sorted_no_dedup (ann : Annotations) (d : AdjMap)
    (anat : String) (mods : List RMTuple) (vis : Finset String)
    (h : recursive_modifier ann anat d = .ok (mods, vis)) :
    locatedEntry ann d anat =
      .ok (pyStrip (pyLower (String.intercalate " "
            (sort_words_by_index (mods.map (fun m => m.1))
              (mods.map (fun m => m.2.2.1))))),
          sortInts (mods.map (fun m => m.2.2.1)),
          sortInts (mods.map (fun m => m.2.2.2))) ∧
      (sortInts (mods.map (fun m => m.2.2.1))).Perm (mods.map (fun m => m.2.2.1)) ∧
      (sortInts (mods.map (fun m => m.2.2.1))).Sorted (· ≤ ·) ∧
      (sortInts (mods.map (fun m => m.2.2.2))).Perm (mods.map (fun m => m.2.2.2)) ∧
      (sortInts (mods.map (fun m => m.2.2.2))).Sorted (· ≤ ·) := by
  refine ⟨?_, sortInts_perm _, sortInts_sorted _, sortInts_perm _, sortInts_sorted _⟩
  unfold locatedEntry
  rw [h]

/-- C2 witness: the amended statement evaluated on the concrete document
with a duplicated token: the phrase keeps both copies and the start list is
the sorted closure offsets. -/
theorem located_entry_sorted_no_dedup_witness :
    locatedEntry docDupToken.entities (anat_map_of docDupToken) "2" =
      .ok ("lung lung", [2, 5], [2, 5]) := by
  have h := located_entry_sorted_no_dedup docDupToken.entities
    (anat_map_of docDupToken) "2"
    [("lung", "Anatomy::definitely present", 2, 2),
     ("lung", "Anatomy::definitely present", 5, 5)]
    {"3", "2"} (by decide)
  exact h.1.trans (by decide)

/-- C3 (counterexample): a `modify` relation to the missing id `99`
processes without any error: the dangling target is only ever used as a map
key, never dereferenced, so the document succeeds although `99` is not in
the entity mapping — refuting the claim that every dangling relation target
raises an error. -/
theorem dangling_modify_silent_counterexample :
    (get_radgraph_processed_annotations docDanglingModify).toOption.isSome = true ∧
    (relIndex docDanglingModify.entities).obs_modified_by_obs = [("99", ["1"])] ∧
    lookupA docDanglingModify.entities "99" = .error (.keyError "99") := by
  exact ⟨by decide, by decide, by decide⟩

/-- C3 (amended): for every input document, a `located_at` or
`suggestive_of` target of a main observation that is missing from the
entity mapping prevents successful processing, and every error the pipeline
returns is a `KeyError` naming an id absent from the entity mapping (on the
one-observation schemas it is exactly the dangling id); conversely,
whenever every `located_at` and `suggestive_of` target of every main
observation is present, processing succeeds — so a dangling `modify`
target, or a dangling target whose source is not a main observation, is
silently skipped and never raises (the counterexample and the last conjunct
give concrete instances). -/
theorem dangling_target_keyerror :
    (∀ (doc : RadDoc) (obs : String × String × String) (targets : List String)
      (t : String), obs ∈ (relIndex doc.entities).all_observations →
      (lookupAdj (relIndex doc.entities).obs_located_anat obs.1 = some targets ∨
        lookupAdj (relIndex doc.entities).obs_suggest_obs obs.1 = some targets) →
      t ∈ targets → lookupA doc.entities t = .error (.keyError t) →
      ∀ out, get_radgraph_processed_annotations doc ≠ .ok out) ∧
    (∀ (doc : RadDoc) (e : RgErr),
      get_radgraph_processed_annotations doc = .error e →
      ∃ m, e = .keyError m ∧ lookupA doc.entities m = .error (.keyError m)) ∧
    (∀ doc : RadDoc,
      (∀ obs ∈ (relIndex doc.entities).all_observations, ∀ targets : List String,
        (lookupAdj (relIndex doc.entities).obs_located_anat obs.1 = some targets ∨
          lookupAdj (relIndex doc.entities).obs_suggest_obs obs.1 = some targets) →
        ∀ t ∈ targets, ∃ e', lookupA doc.entities t = .ok e') →
      ∃ out, get_radgraph_processed_annotations doc = .ok out) ∧
    (∀ m : String, m ≠ "1" →
      get_radgraph_processed_annotations (docLoc m) = .error (.keyError m)) ∧
    (∀ m : String, m ≠ "1" →
      get_radgraph_processed_annotations (docSugg m) = .error (.keyError m)) ∧
    (get_radgraph_processed_annotations docNonMainLoc).toOption.isSome = true := by
  refine ⟨?_, ?_, ?_, ?_, ?_, by decide⟩
  · -- a missing located_at or suggestive_of target of a main observation
    -- prevents success
    intro doc obs targets t hobs hlk ht hmiss out hok
    simp only [get_radgraph_processed_annotations] at hok
    split at hok
    · exact absurd hok (by simp)
    · next processed hmap =>
      obtain ⟨r, hbr⟩ := mapME_ok_forall hmap obs hobs
      simp only [buildRecord] at hbr
      split at hbr
      · exact absurd hbr (by simp)
      · next pr hrm =>
        split at hbr
        · exact absurd hbr (by simp)
        · next locpair hloc =>
          split at hbr
          · exact absurd hbr (by simp)
          · next sugg hsugg =>
            obtain ⟨e0, he0⟩ := recursive_modifier_error_of_missing doc.entities t
              (anat_map_of doc) _ hmiss
            rcases hlk with hlk | hlk
            · rw [locPart_eq_some doc.entities (anat_map_of doc) _ obs.1
                targets hlk] at hloc
              split at hloc
              · exact absurd hloc (by simp)
              · next entries hments =>
                obtain ⟨le, hle⟩ := mapME_ok_forall hments t ht
                unfold locatedEntry at hle
                split at hle
                · exact absurd hle (by simp)
                · next pr' hrm' =>
                  rw [he0] at hrm'
                  exact Except.noConfusion hrm'
            · rw [suggPart_eq_some doc.entities _ obs.1 obs.2.1 targets hlk] at hsugg
              split at hsugg
              · exact absurd hsugg (by simp)
              · next recs hrecs =>
                obtain ⟨y, hy⟩ := mapME_ok_forall hrecs t ht
                unfold suggestEntry at hy
                split at hy
                · exact absurd hy (by simp)
                · next e2 hA =>
                  rw [hmiss] at hA
                  exact Except.noConfusion hA
  · -- every pipeline error names a genuinely missing id
    intro doc e h
    simp only [get_radgraph_processed_annotations] at h
    split at h
    · next e1 hmap =>
      injection h with he
      obtain ⟨obs, _, hbr⟩ := mapME_error_exists hmap
      simp only [buildRecord] at hbr
      split at hbr
      · next e2 hrm =>
        injection hbr with he2
        obtain ⟨m, hm, _, hmiss⟩ := recursive_modifier_error_char doc.entities
          obs.1 (obs_map_of doc) e2 hrm
        exact ⟨m, by rw [← he, ← he2, hm], hmiss⟩
      · next pr hrm =>
        split at hbr
        · next e2 hloc =>
          injection hbr with he2
          obtain ⟨m, hm, hmiss⟩ := locPart_error_char doc.entities
            (anat_map_of doc) _ obs.1 e2 hloc
          exact ⟨m, by rw [← he, ← he2, hm], hmiss⟩
        · next locpair hloc =>
          split at hbr
          · next e2 hsugg =>
            injection hbr with he2
            obtain ⟨m, hm, hmiss⟩ := suggPart_error_char doc.entities _
              obs.1 obs.2.1 e2 hsugg
            exact ⟨m, by rw [← he, ← he2, hm], hmiss⟩
          · exact absurd hbr (by simp)
    · exact absurd h (by simp)
  · -- when every located_at and suggestive_of target of every main
    -- observation is present, processing succeeds
    intro doc hvalid
    have hinv := relIndex_valid doc.entities
    have hobsmap : ∀ c ∈ adjValueIds (obs_map_of doc),
        ∃ e', lookupA doc.entities c = .ok e' := by
      intro c hc
      obtain ⟨p, hp, hcp⟩ := mem_of_mem_adjValueIds _ c hc
      exact hinv.1 p (filter_loop_subset hp) c hcp
    have hanatmap : ∀ c ∈ adjValueIds (anat_map_of doc),
        ∃ e', lookupA doc.entities c = .ok e' := by
      intro c hc
      obtain ⟨p, hp, hcp⟩ := mem_of_mem_adjValueIds _ c hc
      exact hinv.2.1 p (filter_loop_subset hp) c hcp
    have hall : ∀ obs ∈ (relIndex doc.entities).all_observations,
        ∃ r, buildRecord doc.entities (obs_map_of doc)
          (relIndex doc.entities).obs_located_anat
          (relIndex doc.entities).obs_suggest_obs (anat_map_of doc) obs = .ok r := by
      intro obs hobs
      obtain ⟨pr, hpr⟩ := recursive_modifier_ok_of_valid doc.entities obs.1
        (obs_map_of doc) (hinv.2.2 obs hobs) hobsmap
      have hloc : ∃ lp, locPart doc.entities (anat_map_of doc)
          (relIndex doc.entities).obs_located_anat obs.1 = .ok lp := by
        cases hl : lookupAdj (relIndex doc.entities).obs_located_anat obs.1 with
        | none =>
          refine ⟨([], []), ?_⟩
          unfold locPart
          rw [hl]
        | some targets =>
          have hts : ∀ t ∈ targets,
              ∃ y, locatedEntry doc.entities (anat_map_of doc) t = .ok y := by
            intro t ht
            obtain ⟨pr', hpr'⟩ := recursive_modifier_ok_of_valid doc.entities t
              (anat_map_of doc) (hvalid obs hobs targets (Or.inl hl) t ht) hanatmap
            cases hres : locatedEntry doc.entities (anat_map_of doc) t with
            | ok y => exact ⟨y, rfl⟩
            | error e1 =>
              exfalso
              unfold locatedEntry at hres
              split at hres
              · next e2 hrm2 =>
                rw [hpr'] at hrm2
                exact Except.noConfusion hrm2
              · exact absurd hres (by simp)
          obtain ⟨entries, hents⟩ := mapME_ok_of_forall targets hts
          refine ⟨substring_filter_ix (entries.map (fun q => q.1))
            (entries.map (fun q => q.2.1)), ?_⟩
          rw [locPart_eq_some doc.entities (anat_map_of doc) _ obs.1 targets hl,
            hents]
      have hsugg : ∃ sg, suggPart doc.entities
          (relIndex doc.entities).obs_suggest_obs obs.1 obs.2.1 = .ok sg := by
        cases hl : lookupAdj (relIndex doc.entities).obs_suggest_obs obs.1 with
        | none =>
          refine ⟨none, ?_⟩
          unfold suggPart
          rw [hl]
        | some targets =>
          have hts : ∀ t ∈ targets,
              ∃ y, suggestEntry doc.entities obs.2.1 t = .ok y := by
            intro t ht
            obtain ⟨e', he'⟩ := hvalid obs hobs targets (Or.inr hl) t ht
            cases hres : suggestEntry doc.entities obs.2.1 t with
            | ok y => exact ⟨y, rfl⟩
            | error e1 =>
              exfalso
              unfold suggestEntry at hres
              split at hres
              · next e2 hA =>
                rw [he'] at hA
                exact Except.noConfusion hA
              · exact absurd hres (by simp)
          obtain ⟨recs, hrecs⟩ := mapME_ok_of_forall targets hts
          refine ⟨some (substring_filter recs), ?_⟩
          rw [suggPart_eq_some doc.entities _ obs.1 obs.2.1 targets hl, hrecs]
      obtain ⟨lp, hlp⟩ := hloc
      obtain ⟨sg, hsg⟩ := hsugg
      cases hres : buildRecord doc.entities (obs_map_of doc)
          (relIndex doc.entities).obs_located_anat
          (relIndex doc.entities).obs_suggest_obs (anat_map_of doc) obs with
      | ok r => exact ⟨r, rfl⟩
      | error e1 =>
        exfalso
        simp only [buildRecord] at hres
        split at hres
        · next e2 hrm2 =>
          rw [hpr] at hrm2
          exact Except.noConfusion hrm2
        · next pr2 hrm2 =>
          split at hres
          · next e2 hloc2 =>
            rw [hlp] at hloc2
            exact Except.noConfusion hloc2
          · next lp2 hloc2 =>
            split at hres
            · next e2 hsugg2 =>
              rw [hsg] at hsugg2
              exact Except.noConfusion hsugg2
            · exact absurd hres (by simp)
    obtain ⟨processed, hproc⟩ := mapME_ok_of_forall _ hall
    cases hres : get_radgraph_processed_annotations doc with
    | ok out => exact ⟨out, rfl⟩
    | error e1 =>
      exfalso
      simp only [get_radgraph_processed_annotations] at hres
      split at hres
      · next e2 hmap2 =>
        rw [hproc] at hmap2
        exact Except.noConfusion hmap2
      · exact absurd hres (by simp)
  · intro m hm
    by_cases hmod : m = "modify"
    · subst hmod
      decide
    · by_cases hsug : m = "suggestive_of"
      · subst hsug
        decide
      · have hm' : "1" ≠ m := Ne.symm hm
        have h3 : ("1" == m) = false := beq_eq_false_iff_ne.mpr hm'
        have hidx : relIndex (docLoc m).entities =
            ⟨[], [("1", [m])], [], [],
             [("1", "air", "Observation::definitely present")]⟩ := by
          unfold docLoc relIndex relStep relMem appendAdj
          simp +decide [hmod, hsug, hm', strIn]
        have hobs : obs_map_of (docLoc m) = [] := by
          rw [obs_map_of, hidx]
          rfl
        have hanat : anat_map_of (docLoc m) = [] := by
          rw [anat_map_of, hidx]
          rfl
        have e1 : lookupA (docLoc m).entities m = .error (.keyError m) := by
          unfold docLoc lookupA
          simp [List.find?, h3]
        have e2 : recursive_modifier (docLoc m).entities m (anat_map_of (docLoc m)) =
            .error (.keyError m) := by
          rw [hanat]
          show rmFuel (docLoc m).entities [] (1 + 1) ∅ m = .error (.keyError m)
          simp only [rmFuel, Finset.not_mem_empty, if_false]
          rw [show lookupAdj [] m = none from rfl, e1]
        have e2' : locatedEntry (docLoc m).entities (anat_map_of (docLoc m)) m =
            .error (.keyError m) := by
          unfold locatedEntry
          rw [e2]
        have e3 : locPart (docLoc m).entities (anat_map_of (docLoc m))
            (relIndex (docLoc m).entities).obs_located_anat "1" =
            .error (.keyError m) := by
          rw [hidx]
          unfold locPart
          rw [show lookupAdj [("1", [m])] "1" = some [m] from rfl]
          simp only [mapME, e2']
        have hrm : recursive_modifier (docLoc m).entities "1" (obs_map_of (docLoc m)) =
            .ok ([("air", "Observation::definitely present", 0, 0)], insert "1" ∅) := by
          rw [hobs]
          rfl
        have e4 : buildRecord (docLoc m).entities (obs_map_of (docLoc m))
            (relIndex (docLoc m).entities).obs_located_anat
            (relIndex (docLoc m).entities).obs_suggest_obs
            (anat_map_of (docLoc m)) ("1", "air", "Observation::definitely present") =
            .error (.keyError m) := by
          simp only [buildRecord, hrm, e3]
        have hallobs : (relIndex (docLoc m).entities).all_observations =
            [("1", "air", "Observation::definitely present")] := by
          rw [hidx]
        simp only [get_radgraph_processed_annotations, hallobs, mapME, e4]
  · intro m hm
    by_cases hmod : m = "modify"
    · subst hmod
      decide
    · by_cases hloc : m = "located_at"
      · subst hloc
        decide
      · have hm' : "1" ≠ m := Ne.symm hm
        have h3 : ("1" == m) = false := beq_eq_false_iff_ne.mpr hm'
        have hidx : relIndex (docSugg m).entities =
            ⟨[], [], [("1", [m])], [],
             [("1", "air", "Observation::definitely present")]⟩ := by
          unfold docSugg relIndex relStep relMem appendAdj
          simp +decide [hmod, hloc, hm', strIn]
        have hobs : obs_map_of (docSugg m) = [] := by
          rw [obs_map_of, hidx]
          rfl
        have e1 : lookupA (docSugg m).entities m = .error (.keyError m) := by
          unfold docSugg lookupA
          simp [List.find?, h3]
        have e1' : suggestEntry (docSugg m).entities "air" m = .error (.keyError m) := by
          unfold suggestEntry
          rw [e1]
        have eloc : locPart (docSugg m).entities (anat_map_of (docSugg m))
            (relIndex (docSugg m).entities).obs_located_anat "1" = .ok ([], []) := by
          rw [hidx]
          rfl
        have esugg : suggPart (docSugg m).entities
            (relIndex (docSugg m).entities).obs_suggest_obs "1" "air" =
            .error (.keyError m) := by
          rw [hidx]
          unfold suggPart
          rw [show lookupAdj [("1", [m])] "1" = some [m] from rfl]
          simp only [mapME, e1']
        have hrm : recursive_modifier (docSugg m).entities "1" (obs_map_of (docSugg m)) =
            .ok ([("air", "Observation::definitely present", 0, 0)], insert "1" ∅) := by
          rw [hobs]
          rfl
        have e4 : buildRecord (docSugg m).entities (obs_map_of (docSugg m))
            (relIndex (docSugg m).entities).obs_located_anat
            (relIndex (docSugg m).entities).obs_suggest_obs
            (anat_map_of (docSugg m)) ("1", "air", "Observation::definitely present") =
            .error (.keyError m) := by
          simp only [buildRecord, hrm, eloc, esugg]
        have hallobs : (relIndex (docSugg m).entities).all_observations =
            [("1", "air", "Observation::definitely present")] := by
          rw [hidx]
        simp only [get_radgraph_processed_annotations, hallobs, mapME, e4]

/-- C3 witness: each conditional part of the amended statement discharged
at concrete inputs — the dangling located_at id `9` blocks success, every
error at that document names a missing id, the dangling-modify document
satisfies the success condition vacuously, and the two schemas fail with
exactly `keyError 9`. -/
theorem dangling_target_keyerror_witness :
    (get_radgraph_processed_annotations (docLoc "9") ≠
      .ok ⟨[], docLoc "9", [], "t"⟩) ∧
    (∃ m, RgErr.keyError "9" = .keyError m ∧
      lookupA (docLoc "9").entities m = .error (.keyError m)) ∧
    (∃ out, get_radgraph_processed_annotations docDanglingModify = .ok out) ∧
    (get_radgraph_processed_annotations (docLoc "9") = .error (.keyError "9")) ∧
    (get_radgraph_processed_annotations (docSugg "9") = .error (.keyError "9")) :=
  ⟨dangling_target_keyerror.1 (docLoc "9")
      ("1", "air", "Observation::definitely present") ["9"] "9" (by decide)
      (Or.inl (by decide)) (by decide) (by decide) ⟨[], docLoc "9", [], "t"⟩,
   dangling_target_keyerror.2.1 (docLoc "9") (.keyError "9") (by decide),
   dangling_target_keyerror.2.2.1 docDanglingModify (fun obs hobs =>
     absurd (show obs ∈ ([] : List (String × String × String)) from hobs)
       (List.not_mem_nil _)),
   dangling_target_keyerror.2.2.2.1 "9" (by decide),
   dangling_target_keyerror.2.2.2.2.1 "9" (by decide)⟩

theorem mapME_ok_mem {α β : Type _} {f : α → Except RgErr β} :
    ∀ {l : List α} {ys : List β}, mapME f l = .ok ys →
      ∀ y ∈ ys, ∃ x ∈ l, f x = .ok y := by
  intro l
  induction l with
  | nil =>
    intro ys h y hy
    simp only [mapME, Except.ok.injEq] at h
    rw [← h] at hy
    cases hy
  | cons x xs ih =>
    intro ys h y hy
    simp only [mapME] at h
    split at h
    · exact absurd h (by simp)
    · next b hx =>
      split at h
      · exact absurd h (by simp)
      · next bs hxs =>
        simp only [Except.ok.injEq] at h
        rw [← h] at hy
        rcases List.mem_cons.mp hy with rfl | hy'
        · exact ⟨x, List.mem_cons_self _ _, hx⟩
        · obtain ⟨x', hx', hfx'⟩ := ih hxs y hy'
          exact ⟨x', List.mem_cons_of_mem _ hx', hfx'⟩

/-- C6: every emitted record's `tags` holds exactly one value, selected by
the fixed priority absent > uncertain > present over the labels of the
observation's modifier closure (which contains the observation itself). -/
theorem tags_priority (doc : RadDoc) (out : ProcessedOutput)
    (hout : get_radgraph_processed_annotations doc = .ok out)
    (r : ObservationRecord) (hr : r ∈ out.processed_annotations) :
    ∃ obs ∈ (relIndex doc.entities).all_observations, ∃ mods vis,
      recursive_modifier doc.entities obs.1 (obs_map_of doc) = .ok (mods, vis) ∧
      r.tags = [if "Observation::definitely absent" ∈ mods.map (fun m => m.2.1) ∨
            "Observation::measurement::definitely absent" ∈ mods.map (fun m => m.2.1)
          then "definitely absent"
          else if "Observation::uncertain" ∈ mods.map (fun m => m.2.1) ∨
            "Observation::measurement::uncertain" ∈ mods.map (fun m => m.2.1)
          then "uncertain" else "definitely present"] := by
  simp only [get_radgraph_processed_annotations] at hout
  split at hout
  · exact absurd hout (by simp)
  · next processed hmap =>
    injection hout with hout'
    rw [← hout'] at hr
    obtain ⟨obs, hobs, hbr⟩ := mapME_ok_mem hmap r hr
    refine ⟨obs, hobs, ?_⟩
    simp only [buildRecord] at hbr
    split at hbr
    · exact absurd hbr (by simp)
    · next pr hrm =>
      split at hbr
      · exact absurd hbr (by simp)
      · next locpair hloc =>
        split at hbr
        · exact absurd hbr (by simp)
        · next sugg hsugg =>
          refine ⟨pr.1, pr.2, hrm, ?_⟩
          injection hbr with hbr'
          rw [← hbr']

/-- C6 witness: the theorem applied to the concrete one-observation
document carrying an uncertain label, whose record is tagged `uncertain`. -/
theorem tags_priority_witness :
    (⟨"edema", [1], [1], [], [], ["uncertain"], none⟩ : ObservationRecord).tags =
      ["uncertain"] := by
  obtain ⟨obs, h1, mods, vis, h2, h3⟩ := tags_priority docUncertain
    ⟨[⟨"edema", [1], [1], [], [], ["uncertain"], none⟩], docUncertain,
     [("1", "Observation::uncertain")], "t"⟩ (by decide)
    ⟨"edema", [1], [1], [], [], ["uncertain"], none⟩ (by decide)
  have hobs : obs = ("1", "edema", "Observation::uncertain") := by
    have h : obs ∈ [("1", "edema", "Observation::uncertain")] := h1
    exact List.mem_singleton.mp h
  subst hobs
  have h2b : Except.ok ([("edema", "Observation::uncertain", 1, 1)],
      (insert "1" ∅ : Finset String)) = Except.ok (mods, vis) := h2
  injection h2b with h2'
  have hmods : mods = [("edema", "Observation::uncertain", 1, 1)] :=
    (congrArg Prod.fst h2').symm
  rw [hmods] at h3

/-- C7: every emitted record's `observation_start_ix` and
`observation_end_ix` are the sorted, first-occurrence-deduplicated start and
end offsets of the observation's modifier closure: each is strictly
increasing and has exactly the closure's offsets as members. -/
theorem observation_ix_sorted_dedup (doc : RadDoc) (out : ProcessedOutput)
    (hout : get_radgraph_processed_annotations doc = .ok out)
    (r : ObservationRecord) (hr : r ∈ out.processed_annotations) :
    ∃ obs ∈ (relIndex doc.entities).all_observations, ∃ mods vis,
      recursive_modifier doc.entities obs.1 (obs_map_of doc) = .ok (mods, vis) ∧
      r.observation_start_ix.Pairwise (· < ·) ∧
      (∀ x, x ∈ r.observation_start_ix ↔ x ∈ mods.map (fun m => m.2.2.1)) ∧
      r.observation_end_ix.Pairwise (· < ·) ∧
      (∀ x, x ∈ r.observation_end_ix ↔ x ∈ mods.map (fun m => m.2.2.2)) := by
  simp only [get_radgraph_processed_annotations] at hout
  split at hout
  · exact absurd hout (by simp)
  · next processed hmap =>
    injection hout with hout'
    rw [← hout'] at hr
    obtain ⟨obs, hobs, hbr⟩ := mapME_ok_mem hmap r hr
    refine ⟨obs, hobs, ?_⟩
    simp only [buildRecord] at hbr
    split at hbr
    · exact absurd hbr (by simp)
    · next pr hrm =>
      split at hbr
      · exact absurd hbr (by simp)
      · next locpair hloc =>
        split at hbr
        · exact absurd hbr (by simp)
        · next sugg hsugg =>
          injection hbr with hbr'
          refine ⟨pr.1, pr.2, hrm, ?_, ?_, ?_, ?_⟩
          · rw [← hbr']
            exact (pyDedup_sortInts_spec _).1
          · rw [← hbr']
            exact fun x => (pyDedup_sortInts_spec _).2 x
          · rw [← hbr']
            exact (pyDedup_sortInts_spec _).1
          · rw [← hbr']
            exact fun x => (pyDedup_sortInts_spec _).2 x

/-- C7 witness: the theorem applied to the concrete document whose main
observation `opacity` (start 3) has the modifier `increased` (start 0): its
record's index lists are the strictly increasing `[0, 3]`. -/
theorem observation_ix_sorted_dedup_witness :
    (⟨"increased opacity", [0, 3], [0, 3], [], [], ["definitely present"], none⟩ :
      ObservationRecord).observation_start_ix.Pairwise (· < ·) := by
  obtain ⟨obs, h1, mods, vis, h2, h3, h4, h5, h6⟩ :=
    observation_ix_sorted_dedup docModified
      ⟨[⟨"increased opacity", [0, 3], [0, 3], [], [], ["definitely present"], none⟩],
       docModified,
       [("3", "Observation::definitely present"), ("0", "Observation::definitely present")],
       "t"⟩ (by decide)
      ⟨"increased opacity", [0, 3], [0, 3], [], [], ["definitely present"], none⟩
      (by decide)
  exact h3

end Radgraph
